import Mathlib

/-!
Verification of the HRON codec (hron-format).

Shallow embedding of the HRON decode pipeline (lexer `tokenize`, recursive
descent tree builder `build`, hierarchy flattener, reconciler `buildObject`)
and the encode pipeline (`objectToHRONKeys`, `objectToHRONValues`, `toHRON`,
`stringify`) from `src/hron.ts`, `src/builder.ts` and `src/translator.ts`.

Conventions of the embedding:
* JavaScript strings are modelled as Lean `String` at the interface, and as
  `List Char` inside the character-level lexer.  All inputs of interest are
  ASCII, so JS UTF-16 indices coincide with character indices.
* JavaScript numbers are modelled as `ℚ` plus an explicit `nan` value.  The
  codec never performs arithmetic on numbers, it only converts literal text
  to a number (`Number(...)`) and back (`String(...)`), and for the finite
  decimal literals produced by the lexer the rational model is
  observationally equivalent to float64.  `String(...)` is modelled as the
  exact positional decimal expansion, which matches JS only below the
  float64-rounding and exponential-notation thresholds (`2 ^ 53` and
  `1e21`); statements that re-lex a printed number restrict their number
  class to that faithful range (`safeScalar`).
* Exceptions are modelled with `Except Err`; `Err` has one constructor per
  `throw` site, plus constructors for the runtime `TypeError`/`RangeError`
  crashes that the dynamically typed source can hit (reading `.level`/`.type`
  of `undefined`, `" ".repeat` of a negative count).
* `chalk.<color>` is modelled as the identity on strings: the colorizer is a
  presentation-only decorator and with color support disabled chalk returns
  its argument unchanged.
* Mutation is modelled by explicit state passing; the object graph that
  `buildObject` mutates through stack aliases is modelled as an arena of
  nodes addressed by index (`List ANode`), materialized into a pure value
  tree at the end.
-/

set_option maxHeartbeats 1000000

namespace HRON

/-- A JS scalar value (`HRONValueType` plus the `NaN` number). -/
inductive JSValue where
  | str (s : String)
  | num (q : ℚ)
  | nan
  | bool (b : Bool)
  | null
  deriving DecidableEq, Repr

/-- A native JS value tree: the input of `stringify` / output of `parse`.
`obj` keeps fields in insertion order, as JS objects do for string keys. -/
inductive JSObj where
  | obj (fields : List (String × JSObj))
  | arr (elems : List JSObj)
  | prim (v : JSValue)
  deriving Repr

/-- `HRONTokenType` from `hron.ts`. -/
inductive TokenType where
  | IDENT | NUMBER | STRING | BOOL | SYMBOL | NULL
  deriving DecidableEq, Repr

/-- `HRONToken` from `hron.ts`. -/
structure Token where
  type : TokenType
  value : JSValue
  deriving DecidableEq, Repr

/-- `HRONASTKeyValueNodeType` from `builder.ts`. -/
inductive KVType where
  | Object | List | String | Number | Boolean | Null
  deriving DecidableEq, Repr

/-- One constructor per `throw` site of the source, plus the dynamic-type
crashes (`TypeError`, `RangeError`) reachable in the untyped runtime. -/
inductive Err where
  | unterminatedString (pos : Nat)
  | unexpectedCharacter (c : Char) (pos : Nat)
  | eofExpect (t : TokenType) (v : Option String) (pos : Nat)
  | unexpectedTokenType (expected : TokenType) (got : TokenType) (gotVal : JSValue) (pos : Nat)
  | unexpectedTokenValue (expected : String) (got : JSValue) (pos : Nat)
  | eofKey
  | unexpectedKeyToken (t : TokenType) (v : JSValue) (pos : Nat)
  | eofValueBlock (pos : Nat)
  | unexpectedValueBlockStart (v : JSValue) (t : TokenType) (pos : Nat)
  | eofValueNode
  | unexpectedValueNode (v : JSValue) (t : TokenType) (pos : Nat)
  | outOfFuel
  | keyStackUnderflow
  | valueStackUnderflow (level : Nat)
  | noParent (level : Nat)
  | undefinedKeyEntry (level : Nat)
  | typeMismatch (level : Nat) (name : String) (keyType valueType : KVType)
  | extraValues (count : Nat)
  | invalidKeys (name : Option String)
  | invalidValues
  | rangeError
  deriving DecidableEq, Repr

/-! ## Number printing and parsing

`String(n)` for the numbers the codec can see, and `Number(run)` for a
maximal digit/dot run accepted by the lexer. -/

/-- Decimal digits of a natural number, most significant first
(the spelling `String(n)` uses for a nonnegative integer).  The fuel
argument makes the recursion structural; any fuel with `n < 10 ^ fuel`
gives the digits. -/
def natDigitsGo : Nat → Nat → List Char
  | 0, _ => []
  | fuel + 1, n =>
    if n < 10 then [Char.ofNat (48 + n)]
    else natDigitsGo fuel (n / 10) ++ [Char.ofNat (48 + n % 10)]

def natDigits (n : Nat) : List Char := natDigitsGo (n + 1) n

/-- `String(n)` for an integer: sign and positional decimal digits.
Faithful to JS for integers of magnitude below `2 ^ 53` (exact float64
values printed positionally); above that the model prints the exact
mathematical integer where JS would print the rounded float64 value and,
from `1e21`, exponential notation (`"1e+21"`).  Every theorem that feeds a
number back through the lexer therefore restricts its class to the
faithful range (see `safeScalar`). -/
def jsIntRepr (i : Int) : String :=
  if i < 0 then String.mk ('-' :: natDigits i.natAbs) else String.mk (natDigits i.natAbs)

/-- Least `k` such that `q * 10^k` is integral, searched up to a bound
(finite for every float64 value, whose denominator divides a power of 10
times a power of 2; 1100 covers the full float64 exponent range). -/
def decExponent (q : ℚ) : Nat := Id.run do
  for k in [0:1100] do
    if (q * (10 : ℚ) ^ k).den = 1 then return k
  return 1100

/-- `String(q)` for a finite JS number: integer spelling when integral,
otherwise sign, integer part, point, fraction digits — always the exact
positional decimal expansion.  This agrees with JS printing on every
literal the lexer produces and on integers below `2 ^ 53`, but it does not
model the exponential notation JS uses from `1e21` (nor float64 rounding
above `2 ^ 53`); number-quantified round-trip statements stay inside the
faithful range via `safeScalar`, and newline-freeness statements are
unaffected (no JS number spelling contains a newline). -/
def jsNumToString (q : ℚ) : String :=
  if q.den = 1 then jsIntRepr q.num
  else
    let k := decExponent q
    let scaled := (q * (10 : ℚ) ^ k).num.natAbs
    let digits := natDigits scaled
    let digits := List.replicate (k + 1 - digits.length) '0' ++ digits
    let intPart := digits.take (digits.length - k)
    let fracPart := digits.drop (digits.length - k)
    String.mk ((if q < 0 then ['-'] else []) ++ intPart ++ ['.'] ++ fracPart)

/-- `String(v)` on a JS scalar. -/
def jsToString (v : JSValue) : String :=
  match v with
  | .str s => s
  | .num q => jsNumToString q
  | .nan => "NaN"
  | .bool b => if b then "true" else "false"
  | .null => "null"

/-- Decimal value of a run of digit characters. -/
def digitVal (ds : List Char) : Nat :=
  ds.foldl (fun a c => a * 10 + (c.toNat - 48)) 0

/-- Value of a maximal digit/dot run, as `Number(run)` computes it:
a run with at most one dot is read as a decimal literal, with two or more
dots (or a lone dot, which the lexer cannot produce here) it is `NaN`. -/
def jsNumOfRun (run : List Char) : JSValue :=
  match run.splitOn '.' with
  | [ds] => .num (digitVal ds)
  | [intDs, fracDs] =>
      if intDs = [] ∧ fracDs = [] then .nan
      else .num ((digitVal intDs : ℚ) + (digitVal fracDs : ℚ) / (10 : ℚ) ^ fracDs.length)
  | _ => .nan

/-! ## Lexer (`tokenize` in `hron.ts`) -/

/-- `isLetter`: alphabetic or underscore, by character code. -/
def isLetter (c : Char) : Bool :=
  (65 ≤ c.toNat ∧ c.toNat ≤ 90) ∨ (97 ≤ c.toNat ∧ c.toNat ≤ 122) ∨ c.toNat = 95

/-- `isDigit`: numeric character or dot (decimal point), by character code. -/
def isDigit (c : Char) : Bool :=
  (48 ≤ c.toNat ∧ c.toNat ≤ 57) ∨ c.toNat = 46

/-- `isWhitespace`. -/
def isWhitespace (c : Char) : Bool :=
  c = ' ' ∨ c = '\n' ∨ c = '\t' ∨ c = '\r'

/-- `isLetterDigit`: alphanumeric or underscore. -/
def isLetterDigit (c : Char) : Bool :=
  (65 ≤ c.toNat ∧ c.toNat ≤ 90) ∨ (97 ≤ c.toNat ∧ c.toNat ≤ 122) ∨
    (48 ≤ c.toNat ∧ c.toNat ≤ 57) ∨ c.toNat = 95

/-- `isQuote`: single or double quote. -/
def isQuote (c : Char) : Bool := c.toNat = 39 ∨ c.toNat = 34

/-- `isBool`. -/
def isBool (s : String) : Bool := s = "true" ∨ s = "false"

/-- `isNull`. -/
def isNull (s : String) : Bool := s = "null"

/-- `isComment`: the `#` character (code 35). -/
def isComment (c : Char) : Bool := c.toNat = 35

/-- `validSymbols`: the braces, brackets, comma, dot and colon. -/
def validSymbols : List Char :=
  [Char.ofNat 123, Char.ofNat 125, '[', ']', ',', '.', ':']

/-- Token creation helpers from `hron.ts`. -/
def createSymbolToken (value : String) : Token := ⟨.SYMBOL, .str value⟩
def createStringToken (value : String) : Token := ⟨.STRING, .str value⟩
def createNumberToken (value : JSValue) : Token := ⟨.NUMBER, value⟩
def createBoolToken (value : Bool) : Token := ⟨.BOOL, .bool value⟩
def createNullToken : Token := ⟨.NULL, .null⟩
def createIdentToken (value : String) : Token := ⟨.IDENT, .str value⟩

/-- One step of the `tokenize` loop: `pos` is the running input offset
(used only in error messages), `ih` continues on the rest of the input.
Each branch mirrors one `if` of the source in order: whitespace, comment,
symbol, quote, digit, letter, error. -/
def tokenizeStep (ih : List Char → Nat → Except Err (List Token)) :
    List Char → Nat → Except Err (List Token) := fun input pos =>
  match input with
  | [] => .ok []
  | c :: rest =>
    if isWhitespace c then ih rest (pos + 1)
    else if isComment c then
      -- `input.indexOf("\n", position)`: skip through end of line
      match rest.dropWhile (fun d => !(d = '\n')) with
      | [] => .ok []
      | _ :: rest' =>
        ih rest' (pos + 1 + (rest.takeWhile (fun d => !(d = '\n'))).length + 1)
    else if c ∈ validSymbols then
      (ih rest (pos + 1)).map (createSymbolToken (String.mk [c]) :: ·)
    else if isQuote c then
      -- scan to the next occurrence of the same quote character
      match rest.dropWhile (fun d => !(d = c)) with
      | [] => .error (.unterminatedString pos)
      | _ :: rest' =>
        let strChars := rest.takeWhile (fun d => !(d = c))
        (ih rest' (pos + strChars.length + 2)).map
          (createStringToken (String.mk strChars) :: ·)
    else if isDigit c then
      let run := c :: rest.takeWhile isDigit
      (ih (rest.dropWhile isDigit) (pos + run.length)).map
        (createNumberToken (jsNumOfRun run) :: ·)
    else if isLetter c then
      let run := c :: rest.takeWhile isLetterDigit
      let identString := String.mk run
      let tok :=
        if isBool identString then createBoolToken (identString = "true")
        else if isNull identString then createNullToken
        else createIdentToken identString
      (ih (rest.dropWhile isLetterDigit) (pos + run.length)).map (tok :: ·)
    else .error (.unexpectedCharacter c pos)

/-- The `tokenize` loop.  Every step consumes at least one character, so
the fuel `input.length + 1` supplied by `tokenize` is never exhausted; the
fuel only bounds the recursion (written with `Nat.rec` so that closed runs
reduce). -/
def tokenizeGo (fuel : Nat) : List Char → Nat → Except Err (List Token) :=
  Nat.rec (fun _ _ => .error .outOfFuel) (fun _ ih => tokenizeStep ih) fuel

/-- `tokenize` from `hron.ts`: a string to a flat token sequence. -/
def tokenize (input : String) : Except Err (List Token) :=
  tokenizeGo (input.data.length + 1) input.data 0

/-! ## AST (`builder.ts`)

`HRONASTHeaderBlockNode` and `HRONASTValueBlockNode` are single-field
wrappers; they are inlined into `DocumentNode`. -/

/-- `HRONASTKeyNode`: `(type, name, children)`. -/
inductive KeyNode where
  | node (type : KVType) (name : String) (children : List KeyNode)
  deriving Repr

/-- `HRONASTValueNode`: `(type, value, children)`. -/
inductive ValueNode where
  | node (type : KVType) (value : JSValue) (children : List ValueNode)
  deriving Repr

/-- `HRONASTDocumentNode`: header key tree and value block items. -/
structure DocumentNode where
  header : KeyNode
  body : List ValueNode
  deriving Repr

/-! ## Parser (`HRONASTBuilder` in `builder.ts`)

The builder keeps mutable fields `tokens` and `position`; parsing functions
are modelled as explicit functions of the token array and the position.
A result is `(value, position)`; a thrown error is `(error, position at the
throw)` — the position is part of the outcome because `reset` runs only at
the end of a *successful* `build`, so a failed parse leaves `position`
behind for the next call on the same instance.

The recursion of the source is executed with a fuel parameter (the source
recurses on the token stream directly; any fuel at least
`2 * tokens.length + 2` is beyond what a run can consume, since every two
nested or sequential calls consume at least one token). -/

abbrev PResult (α : Type) := Except (Err × Nat) (α × Nat)

/-- `peek`: the current token, `undefined` past the end. -/
def peek (tokens : List Token) (pos : Nat) : Option Token := tokens[pos]?

/-- `isBracketToken`. -/
def isBracketToken (t : TokenType) (v : JSValue) (bracketSymbol : String) : Bool :=
  t = .SYMBOL ∧ v = .str bracketSymbol

/-- `expect(type, value?)`: consume the next token, failing on end of input,
a kind mismatch, or (when `value` is given) a literal mismatch. -/
def expect (tokens : List Token) (pos : Nat) (t : TokenType) (v : Option String) :
    PResult Token :=
  match peek tokens pos with
  | none => .error (.eofExpect t v pos, pos)
  | some tok =>
    -- `this.next()` has advanced the position; error messages cite `position - 1`
    if tok.type ≠ t then .error (.unexpectedTokenType t tok.type tok.value pos, pos + 1)
    else
      match v with
      | some val =>
        if tok.value ≠ .str val then .error (.unexpectedTokenValue val tok.value pos, pos + 1)
        else .ok (tok, pos + 1)
      | none => .ok (tok, pos + 1)

/-- One step of `parseKeyNode`, with the recursive entries into the
bracket-item loop passed as `ihItems`. -/
def parseKeyNodeStep (tokens : List Token)
    (ihItems : Nat → String → PResult (List KeyNode)) : Nat → PResult KeyNode :=
  fun pos =>
  match peek tokens pos with
  | none => .error (.eofKey, pos)
  | some tok =>
    if tok.type = .IDENT then
      let name := jsToString tok.value
      -- `this.next()`
      match peek tokens (pos + 1) with
      | some nextToken =>
        if nextToken.type = .SYMBOL ∧ nextToken.value = .str "\x7b" then
          match ihItems (pos + 2) "\x7d" with
          | .error e => .error e
          | .ok (children, p') => .ok (.node .Object name children, p')
        else if nextToken.type = .SYMBOL ∧ nextToken.value = .str "[" then
          match ihItems (pos + 2) "]" with
          | .error e => .error e
          | .ok (children, p') => .ok (.node .List name children, p')
        else .ok (.node .String name [], pos + 1)
      | none => .ok (.node .String name [], pos + 1)
    else if isBracketToken tok.type tok.value "\x7b" then
      match ihItems (pos + 1) "\x7d" with
      | .error e => .error e
      | .ok (children, p') => .ok (.node .Object "" children, p')
    else if isBracketToken tok.type tok.value "[" then
      match ihItems (pos + 1) "]" with
      | .error e => .error e
      | .ok (children, p') => .ok (.node .List "" children, p')
    else .error (.unexpectedKeyToken tok.type tok.value pos, pos)

/-- One step of the `readBracketItems` loop instantiated with
`parseKeyNode` (`parseChildren`; `consumeStart = false` — the caller has
consumed the opening bracket).  Reads items until the end symbol,
tolerating a comma after each item, then `expect`s the closing symbol. -/
def readKeyItemsStep (tokens : List Token)
    (ihNode : Nat → PResult KeyNode)
    (ihItems : Nat → String → PResult (List KeyNode)) :
    Nat → String → PResult (List KeyNode) := fun pos endSymbol =>
  match peek tokens pos with
  | none =>
    -- `token` is undefined: the loop exits and `expect` fails at end of input
    .error (.eofExpect .SYMBOL (some endSymbol) pos, pos)
  | some tok =>
    if isBracketToken tok.type tok.value endSymbol then
      -- loop exit; `expect("SYMBOL", endSymbol)` consumes the closer
      .ok ([], pos + 1)
    else
      match ihNode pos with
      | .error e => .error e
      | .ok (item, p') =>
        -- `if (this.peek()?.value === ",") this.next();`
        let p'' :=
          match peek tokens p' with
          | some t2 => if t2.value = .str "," then p' + 1 else p'
          | none => p'
        match ihItems p'' endSymbol with
        | .error e => .error e
        | .ok (items, p3) => .ok (item :: items, p3)

/-- The mutually recursive pair `parseKeyNode`/`readBracketItems`, tied
with a `Nat.rec` fuel tower so that closed runs reduce. -/
def keyParsers (tokens : List Token) (fuel : Nat) :
    (Nat → PResult KeyNode) × (Nat → String → PResult (List KeyNode)) :=
  Nat.rec
    (motive := fun _ => (Nat → PResult KeyNode) × (Nat → String → PResult (List KeyNode)))
    (⟨fun pos => .error (.outOfFuel, pos), fun pos _ => .error (.outOfFuel, pos)⟩)
    (fun _ ih => ⟨parseKeyNodeStep tokens ih.2, readKeyItemsStep tokens ih.1 ih.2⟩)
    fuel

/-- `parseKeyNode`: a key node of the header structure. -/
def parseKeyNode (tokens : List Token) (fuel pos : Nat) : PResult KeyNode :=
  (keyParsers tokens fuel).1 pos

/-- The `readBracketItems` loop for key nodes. -/
def readKeyItems (tokens : List Token) (fuel pos : Nat) (endSymbol : String) :
    PResult (List KeyNode) :=
  (keyParsers tokens fuel).2 pos endSymbol

/-- One step of `parseValueNode`. -/
def parseValueNodeStep (tokens : List Token)
    (ihItems : Nat → String → PResult (List ValueNode)) : Nat → PResult ValueNode :=
  fun pos =>
  match peek tokens pos with
  | none => .error (.eofValueNode, pos)
  | some tok =>
    if isBracketToken tok.type tok.value "\x7b" then
      -- `parseBracket("}", "Object")` (`consumeStart = true`)
      match ihItems (pos + 1) "\x7d" with
      | .error e => .error e
      | .ok (children, p') => .ok (.node .Object (.str "") children, p')
    else if isBracketToken tok.type tok.value "[" then
      match ihItems (pos + 1) "]" with
      | .error e => .error e
      | .ok (children, p') => .ok (.node .List (.str "") children, p')
    else
      -- `this.next()`
      match tok.type with
      | .STRING => .ok (.node .String tok.value [], pos + 1)
      | .NUMBER =>
        -- `Number(tokenValue)` is the identity on a numeric token value
        .ok (.node .Number tok.value [], pos + 1)
      | .BOOL =>
        -- `tokenValue === "true"`: a strict comparison of the *boolean*
        -- token value against the string "true" — always false
        .ok (.node .Boolean (.bool (tok.value = .str "true")) [], pos + 1)
      | .NULL => .ok (.node .Null .null [], pos + 1)
      | _ => .error (.unexpectedValueNode tok.value tok.type pos, pos + 1)

/-- One step of the `readBracketItems` loop instantiated with
`parseValueNode`. -/
def readValueItemsStep (tokens : List Token)
    (ihNode : Nat → PResult ValueNode)
    (ihItems : Nat → String → PResult (List ValueNode)) :
    Nat → String → PResult (List ValueNode) := fun pos endSymbol =>
  match peek tokens pos with
  | none =>
    .error (.eofExpect .SYMBOL (some endSymbol) pos, pos)
  | some tok =>
    if isBracketToken tok.type tok.value endSymbol then
      .ok ([], pos + 1)
    else
      match ihNode pos with
      | .error e => .error e
      | .ok (item, p') =>
        let p'' :=
          match peek tokens p' with
          | some t2 => if t2.value = .str "," then p' + 1 else p'
          | none => p'
        match ihItems p'' endSymbol with
        | .error e => .error e
        | .ok (items, p3) => .ok (item :: items, p3)

/-- The mutually recursive pair `parseValueNode`/`readBracketItems`. -/
def valueParsers (tokens : List Token) (fuel : Nat) :
    (Nat → PResult ValueNode) × (Nat → String → PResult (List ValueNode)) :=
  Nat.rec
    (motive := fun _ => (Nat → PResult ValueNode) × (Nat → String → PResult (List ValueNode)))
    (⟨fun pos => .error (.outOfFuel, pos), fun pos _ => .error (.outOfFuel, pos)⟩)
    (fun _ ih => ⟨parseValueNodeStep tokens ih.2, readValueItemsStep tokens ih.1 ih.2⟩)
    fuel

/-- `parseValueNode`: a single value node. -/
def parseValueNode (tokens : List Token) (fuel pos : Nat) : PResult ValueNode :=
  (valueParsers tokens fuel).1 pos

/-- The `readBracketItems` loop for value nodes. -/
def readValueItems (tokens : List Token) (fuel pos : Nat) (endSymbol : String) :
    PResult (List ValueNode) :=
  (valueParsers tokens fuel).2 pos endSymbol

/-- `parseValueBlock`: a brace or bracket block, or a literal.  The branch
on `{`/`[` tests only the token *value* (the `switch (tokenValue)` of the
source), and the literal fallback admits STRING, NUMBER and BOOL only —
NULL is absent from the check. -/
def parseValueBlock (tokens : List Token) (fuel : Nat) (pos : Nat) :
    PResult (List ValueNode) :=
  match peek tokens pos with
  | none => .error (.eofValueBlock pos, pos)
  | some start =>
    if start.value = .str "\x7b" then
      -- `parseBracketBlock("}", "Object")`, `consumeStart = true`
      match readValueItems tokens fuel (pos + 1) "\x7d" with
      | .error e => .error e
      | .ok (children, p') => .ok ([.node .Object (.str "") children], p')
    else if start.value = .str "[" then
      match readValueItems tokens fuel (pos + 1) "]" with
      | .error e => .error e
      | .ok (children, p') => .ok ([.node .List (.str "") children], p')
    else if start.type = .STRING ∨ start.type = .NUMBER ∨ start.type = .BOOL then
      match parseValueNode tokens fuel pos with
      | .error e => .error e
      | .ok (n, p') => .ok ([n], p')
    else .error (.unexpectedValueBlockStart start.value start.type pos, pos)

/-- `build`: parse a header, the colon, and a value block, starting from
the builder position `pos0` (0 on a fresh instance, whatever the previous
failed call left behind otherwise).  On success `reset` zeroes the
position; the document and the new position are returned. -/
def build (tokens : List Token) (pos0 : Nat) :
    Except (Err × Nat) (DocumentNode × Nat) :=
  let fuel := 2 * tokens.length + 2
  match parseKeyNode tokens fuel pos0 with
  | .error e => .error e
  | .ok (header, p1) =>
    match expect tokens p1 .SYMBOL (some ":") with
    | .error e => .error e
    | .ok (_, p2) =>
      match parseValueBlock tokens fuel p2 with
      | .error e => .error e
      | .ok (body, _) =>
        -- `this.reset()`: runs only on this success path
        .ok (⟨header, body⟩, 0)

/-! ## Hierarchy flattener (`buildHierarchy` in `translator.ts`)

The generic `buildHierarchy` is instantiated once for each tree shape. -/

/-- `HRONKeysHierarchyType`. -/
structure KeyEntry where
  name : String
  type : KVType
  level : Nat
  deriving DecidableEq, Repr

/-- `HRONValuesHierarchyType`. -/
structure ValueEntry where
  type : KVType
  value : JSValue
  level : Nat
  deriving DecidableEq, Repr

mutual

/-- Depth-first pre-order walk of a key tree. -/
def keysWalk : KeyNode → Nat → List KeyEntry
  | .node t n cs, level => ⟨n, t, level⟩ :: keysWalkList cs (level + 1)

def keysWalkList : List KeyNode → Nat → List KeyEntry
  | [], _ => []
  | c :: cs, level => keysWalk c level ++ keysWalkList cs level

end

mutual

/-- Depth-first pre-order walk of a value tree. -/
def valuesWalk : ValueNode → Nat → List ValueEntry
  | .node t v cs, level => ⟨t, v, level⟩ :: valuesWalkList cs (level + 1)

def valuesWalkList : List ValueNode → Nat → List ValueEntry
  | [], _ => []
  | c :: cs, level => valuesWalk c level ++ valuesWalkList cs level

end

/-- `getKeysHierarchy` (initial level 1). -/
def getKeysHierarchy (root : KeyNode) (initLevel : Nat := 1) : List KeyEntry :=
  keysWalk root initLevel

/-- `getValuesHierarchy` (initial level 1). -/
def getValuesHierarchy (root : List ValueNode) (initLevel : Nat := 1) : List ValueEntry :=
  valuesWalkList root initLevel

/-! ## Reconciler (`buildObject` in `translator.ts`)

The source builds the result by mutating plain JS objects/arrays reachable
both from `root` and from the two stacks.  The mutable graph is modelled as
an arena: a list of nodes addressed by index, stack entries are
`(level, index)` pairs, and a composite child is stored as a reference to
a later index.  References always point to nodes created later, so the
arena is acyclic and `materialize` with fuel `arena.length` reads back the
full tree. -/

/-- Type guards from `translator.ts`. -/
def isObject (t : KVType) : Bool := t = .Object
def isList (t : KVType) : Bool := t = .List
def isObjectList (t : KVType) : Bool := isObject t || isList t

/-- `isTypeNotEqual`: the key declares `targetType` but the value is not of
that type. -/
def isTypeNotEqual (keyType valueType targetType : KVType) : Bool :=
  keyType = targetType ∧ valueType ≠ targetType

/-- An arena slot content: a composite child is a reference to a later
arena index, a scalar child is stored directly. -/
inductive AEntry where
  | ref (i : Nat)
  | leaf (v : JSValue)
  deriving DecidableEq, Repr

/-- A mutable node of the under-construction graph: a JS object (ordered
fields) or a JS array. -/
inductive ANode where
  | aobj (fields : List (String × AEntry))
  | aarr (elems : List AEntry)
  deriving DecidableEq, Repr

abbrev Arena := List ANode

/-- Arena read; indices are in range by construction. -/
def aget (arena : Arena) (i : Nat) : ANode := arena.getD i (.aobj [])

/-- JS property assignment: overwrite in place if the key exists (keeping
its position), append otherwise. -/
def setProp (fields : List (String × AEntry)) (name : String) (e : AEntry) :
    List (String × AEntry) :=
  if fields.any (·.1 = name) then
    fields.map (fun f => if f.1 = name then (name, e) else f)
  else fields ++ [(name, e)]

/-- Attach a child to a parent node: `push` for an array parent,
property assignment for an object parent. -/
def attach (arena : Arena) (parentId : Nat) (name : String) (e : AEntry) : Arena :=
  match aget arena parentId with
  | .aarr elems => arena.set parentId (.aarr (elems ++ [e]))
  | .aobj fields => arena.set parentId (.aobj (setProp fields name e))

/-- The per-depth cursor record `keyCursor` (`Record<number, number>`). -/
def cursorGet (m : List (Nat × Nat)) (level : Nat) : Nat :=
  (((m.find? (·.1 = level)).map (·.2)).getD 0)

def cursorSet (m : List (Nat × Nat)) (level v : Nat) : List (Nat × Nat) :=
  if m.any (·.1 = level) then m.map (fun p => if p.1 = level then (level, v) else p)
  else m ++ [(level, v)]

/-- `keyLevels[level]`: the schema entries of one depth, in order. -/
def keyLevels (keys : List KeyEntry) (level : Nat) : List KeyEntry :=
  keys.filter (·.level = level)

/-- The pop loop `while (stack[stack.length - 1]!.level >= level) stack.pop()`.
Reading the top of an empty stack is a `TypeError` in the source; the error
argument says which crash that would be. -/
def popWhile (e : Err) (level : Nat) : List (Nat × Nat) → Except Err (List (Nat × Nat))
  | [] => .error e
  | (l, i) :: rest => if level ≤ l then popWhile e level rest else .ok ((l, i) :: rest)

/-- The mutable state of one `buildObject` call. -/
structure BuildState where
  arena : Arena
  keyStack : List (Nat × Nat)
  valueStack : List (Nat × Nat)
  keyCursor : List (Nat × Nat)
  deriving Repr

/-- The inner `while` of `buildObject`: pull data entries as long as the
next one's level is at most `keyLevel + 1`.  An entry whose parent is an
array is attached positionally (no field name, no type check); an entry
whose parent is an object is named by the cursor-selected schema entry of
its level, after the List/Object mismatch check, and the cursor advances
modulo the number of keys at that level.  Returns the new state and the
remaining data entries. -/
def consumeValues (keys : List KeyEntry) (keyLevel : Nat) :
    List ValueEntry → BuildState → Except Err (BuildState × List ValueEntry)
  | [], st => .ok (st, [])
  | v :: rest, st =>
    if v.level ≤ keyLevel + 1 then
      match popWhile (.valueStackUnderflow v.level) v.level st.valueStack with
      | .error e => .error e
      | .ok stack =>
        match stack with
        | [] => .error (.noParent v.level) -- `if (!valueStack.length) throw ...`
        | (_, parentId) :: _ =>
          match aget st.arena parentId with
          | .aarr elems =>
            if isObjectList v.type then
              let newId := st.arena.length
              let node : ANode := if isObject v.type then .aobj [] else .aarr []
              let arena := st.arena.set parentId (.aarr (elems ++ [.ref newId])) ++ [node]
              consumeValues keys keyLevel rest
                { st with arena := arena, valueStack := (v.level, newId) :: stack }
            else
              consumeValues keys keyLevel rest
                { st with
                    arena := st.arena.set parentId (.aarr (elems ++ [.leaf v.value])),
                    valueStack := stack }
          | .aobj fields =>
            let keysAtLevel := keyLevels keys v.level
            let cursor := cursorGet st.keyCursor v.level
            match keysAtLevel[cursor]? with
            | none => .error (.undefinedKeyEntry v.level) -- TypeError on `keyEntry!.type`
            | some keyEntry =>
              if isTypeNotEqual keyEntry.type v.type .List
                  ∨ isTypeNotEqual keyEntry.type v.type .Object then
                .error (.typeMismatch v.level keyEntry.name keyEntry.type v.type)
              else
                let nextCursor := cursor + 1
                let cursors := cursorSet st.keyCursor v.level
                  (if keysAtLevel.length ≤ nextCursor then 0 else nextCursor)
                if isObjectList v.type then
                  let newId := st.arena.length
                  let node : ANode := if isObject v.type then .aobj [] else .aarr []
                  let arena :=
                    st.arena.set parentId (.aobj (setProp fields keyEntry.name (.ref newId)))
                      ++ [node]
                  consumeValues keys keyLevel rest
                    { st with
                        arena := arena,
                        valueStack := (v.level, newId) :: stack,
                        keyCursor := cursors }
                else
                  consumeValues keys keyLevel rest
                    { st with
                        arena := st.arena.set parentId
                          (.aobj (setProp fields keyEntry.name (.leaf v.value))),
                        valueStack := stack,
                        keyCursor := cursors }
    else .ok (st, v :: rest)

/-- The outer `for` of `buildObject` over the schema entries: restore the
key-stack ancestry, materialize the schema node (`{}`, `[]` or `null`),
attach it to the current parent, then consume the data entries this schema
entry owns. -/
def keysLoop (keys : List KeyEntry) :
    List KeyEntry → List ValueEntry → BuildState → Except Err (BuildState × List ValueEntry)
  | [], values, st => .ok (st, values)
  | key :: restKeys, values, st =>
    match popWhile .keyStackUnderflow key.level st.keyStack with
    | .error e => .error e
    | .ok stack =>
      match stack with
      | [] => .error .keyStackUnderflow -- unreachable: `popWhile` never returns []
      | (_, parentId) :: _ =>
        if isObjectList key.type then
          let newId := st.arena.length
          let node : ANode := if isObject key.type then .aobj [] else .aarr []
          let arena := attach st.arena parentId key.name (.ref newId) ++ [node]
          let st' := { st with arena := arena, keyStack := (key.level, newId) :: stack }
          match consumeValues keys key.level values st' with
          | .error e => .error e
          | .ok (st'', values') => keysLoop keys restKeys values' st''
        else
          let arena := attach st.arena parentId key.name (.leaf .null)
          let st' := { st with arena := arena, keyStack := stack }
          match consumeValues keys key.level values st' with
          | .error e => .error e
          | .ok (st'', values') => keysLoop keys restKeys values' st''

/-- One level of reading the value tree back out of the arena. -/
def materializeStep (arena : Arena) (ih : Nat → JSObj) : Nat → JSObj := fun i =>
  match aget arena i with
  | .aobj fields =>
    .obj (fields.map (fun f =>
      match f.2 with
      | .leaf v => (f.1, .prim v)
      | .ref j => (f.1, ih j)))
  | .aarr elems =>
    .arr (elems.map (fun e =>
      match e with
      | .leaf v => .prim v
      | .ref j => ih j))

/-- Read the value tree back out of the arena.  References strictly
increase, so fuel `arena.length` always suffices; fuel 0 is unreachable
on arenas built here. -/
def materialize (arena : Arena) (fuel : Nat) : Nat → JSObj :=
  Nat.rec (fun _ => .prim .null) (fun _ ih => materializeStep arena ih) fuel

/-- `buildObject`: reconstruct a JS value from the flattened key and value
hierarchies.  An empty schema yields `{}` immediately; afterwards leftover
data entries raise the extra-values error. -/
def buildObject (keys : List KeyEntry) (values : List ValueEntry) : Except Err JSObj :=
  if keys.isEmpty then .ok (.obj [])
  else
    let st0 : BuildState := ⟨[.aobj []], [(0, 0)], [(0, 0)], []⟩
    match keysLoop keys keys values st0 with
    | .error e => .error e
    | .ok (st, leftover) =>
      if leftover.length ≠ 0 then .error (.extraValues leftover.length)
      else .ok (materialize st.arena st.arena.length 0)

/-- `toObject`: flatten both trees of a document and reconcile them. -/
def toObject (document : DocumentNode) : Except Err JSObj :=
  buildObject (getKeysHierarchy document.header) (getValuesHierarchy document.body)

/-! ## The `parse` entry point (`hron.ts`)

`parse(input) = toObject(build(tokenize(input)))` on a builder instance
whose `position` survives from call to call: `build` replaces `tokens`
wholesale but starts from the old `position`, which is cleared only by the
`reset` at the end of a successful `build`. -/

/-- One `parse` call on an instance whose builder position is `pos0`;
returns the result together with the position the instance is left with. -/
def parseCall (pos0 : Nat) (input : String) : Except Err JSObj × Nat :=
  match tokenize input with
  | .error e => (.error e, pos0)
  | .ok toks =>
    match build toks pos0 with
    | .error (e, p) => (.error e, p)
    | .ok (doc, p) => (toObject doc, p)

/-- `parse` on a fresh instance (builder position 0). -/
def parse (input : String) : Except Err JSObj := (parseCall 0 input).1

/-! ## Emitters (`objectToHRONKeys`, `objectToHRONValues` in `translator.ts`)

`chalk.yellow`/`chalk.green`/`chalk.magenta` are the identity (color
support off).  Each emitter wraps its whole body in `try/catch` and
rethrows a fixed error, so every failure — including the `RangeError` of
`" ".repeat` on a negative count and propagated child errors — surfaces as
that error. -/

/-- First-character test (`String.prototype.startsWith` with a one-character
argument). -/
def strHead (s : String) (c : Char) : Bool :=
  match s.data with
  | [] => false
  | d :: _ => d = c

/-- Last-character test (`String.prototype.endsWith` with a one-character
argument). -/
def strLast (s : String) (c : Char) : Bool :=
  match s.data.getLast? with
  | some d => d = c
  | none => false

/-- `isStringObject`: starts with `{` and ends with `}`. -/
def isStringObject (input : String) : Bool :=
  strHead input (Char.ofNat 123) && strLast input (Char.ofNat 125)

/-- `isStringList`: starts with `[` and ends with `]`. -/
def isStringList (input : String) : Bool :=
  strHead input '[' && strLast input ']'

/-- `String.prototype.slice` with signed, clamped indices. -/
def jsSlice (s : String) (start stop : Int) : String :=
  let len : Int := s.length
  let rel : Int → Nat := fun i => (if i < 0 then max (len + i) 0 else min i len).toNat
  String.mk ((s.data.take (rel stop)).drop (rel start))

/-- `sliceBracket`: remove the outer bracket pair (slice from 1 to
`length - 1`, the source's default arguments). -/
def sliceBracket (input : String) : String :=
  jsSlice input 1 ((input.length : Int) - 1)

/-- `HRONParseOptions` as documented in `hron.ts` (not defined in the
`translator.ts` under verification — the import there is a type-only
reference that bun erases). -/
structure HRONParseOptions where
  indent : ℚ
  colorize : Bool
  deriving DecidableEq, Repr

/-- What actually arrives in the `indent : number` parameter of `toHRON` /
`objectToHRONValues`: a number when called directly, or the whole options
object when called through `stringify` (which passes `options`, not
`options.indent`).  Arithmetic and comparisons on the object give `NaN`. -/
inductive HRONIndent where
  | num (n : ℚ)
  | options (o : HRONParseOptions)
  deriving DecidableEq, Repr

/-- `indent < 1`: on the options object this is `NaN < 1`, i.e. false. -/
def indentLt1 : HRONIndent → Bool
  | .num n => n < 1
  | .options _ => false

/-- `indent * level`: `none` models `NaN` (object times number). -/
def indentTimes : HRONIndent → Int → Option ℚ
  | .num n, l => some (n * l)
  | .options _, _ => none

/-- JS `ToIntegerOrInfinity` on a finite number: truncation toward zero. -/
def jsToIntTrunc (q : ℚ) : Int :=
  if q < 0 then -((-q).floor) else q.floor

/-- `" ".repeat(count)`: `NaN` counts as 0, a negative count is a
`RangeError`. -/
def jsRepeatSpaces : Option ℚ → Except Err String
  | none => .ok ""
  | some q =>
    let t := jsToIntTrunc q
    if t < 0 then .error .rangeError
    else .ok (String.mk (List.replicate t.toNat ' '))

/-- `object.length === 0` on a non-array object: read the own property
`length` and strictly compare with the number 0. -/
def jsLengthZero (fields : List (String × JSObj)) : Bool :=
  match fields.find? (·.1 = "length") with
  | some (_, .prim (.num q)) => q = 0
  | _ => false

mutual

/-- The body of `objectToHRONKeys` on a defined value: an array takes
element `[0]` as the representative shape, an object joins its recursively
rendered fields with commas inside braces, a scalar contributes its name
(or the empty string unnamed).  The `catch` turns any failure into the
invalid-keys error naming this level's `name`. -/
def objectToHRONKeysSome : JSObj → Option String → Except Err String
  | .arr [], name =>
    -- `object[0]` of an empty array is `undefined`: the recursive call
    -- throws, its own catch yields the unnamed invalid-keys error, and this
    -- call's catch renames it to this level's `name`
    .error (.invalidKeys name)
  | .arr (x :: _), name =>
    match objectToHRONKeysSome x none with
    | .error _ => .error (.invalidKeys name)
    | .ok hronKeys =>
      .ok (match name with
           | some n => n ++ "[" ++ hronKeys ++ "]"
           | none => "[" ++ hronKeys ++ "]")
  | .obj fields, name =>
    match objectToHRONKeysFields fields with
    | .error _ => .error (.invalidKeys name)
    | .ok keys =>
      .ok (match name with
           | some n => n ++ "\x7b" ++ keys ++ "\x7d"
           | none => "\x7b" ++ keys ++ "\x7d")
  | .prim _, name => .ok (name.getD "")

/-- `Object.keys(object).map(key => objectToHRONKeys(object[key], key)).join(",")`. -/
def objectToHRONKeysFields : List (String × JSObj) → Except Err String
  | [] => .ok ""
  | [(k, v)] => objectToHRONKeysSome v (some k)
  | (k, v) :: f :: fields =>
    match objectToHRONKeysSome v (some k) with
    | .error e => .error e
    | .ok s =>
      match objectToHRONKeysFields (f :: fields) with
      | .error e => .error e
      | .ok t => .ok (s ++ "," ++ t)

end

/-- `objectToHRONKeys`: derive the schema string of a value; `undefined`
input throws (caught by the catch into the invalid-keys error). -/
def objectToHRONKeys : Option JSObj → Option String → Except Err String
  | none, name => .error (.invalidKeys name)
  | some o, name => objectToHRONKeysSome o name

mutual

/-- The body of `objectToHRONValues` on a defined value: render the full
value tree.  An empty array (or an object whose `length` property is the
number 0) renders as the bare bracket pair; otherwise the children are
rendered joined by commas and the group is kept on one line when the
joined string is itself a single bracketed unit or `indent < 1`, else
wrapped in newlines with `indent * level` spaces.  Any failure becomes the
invalid-values error. -/
def objectToHRONValuesSome : JSObj → HRONIndent → Int → Except Err String
  | .arr elems, indent, level =>
    if elems.isEmpty then .ok "[]"
    else
      match objectToHRONValuesList elems indent (level + 1) with
      | .error _ => .error .invalidValues
      | .ok items =>
        if isStringList items || indentLt1 indent then .ok ("[" ++ items ++ "]")
        else
          match jsRepeatSpaces (indentTimes indent level),
              jsRepeatSpaces (indentTimes indent (level - 1)) with
          | .ok s1, .ok s2 => .ok ("[\n" ++ s1 ++ items ++ "\n" ++ s2 ++ "]")
          | _, _ => .error .invalidValues
  | .obj fields, indent, level =>
    if jsLengthZero fields then .ok "\x7b\x7d"
    else
      match objectToHRONValuesFields fields indent (level + 1) with
      | .error _ => .error .invalidValues
      | .ok values =>
        if isStringObject values || indentLt1 indent then .ok ("\x7b" ++ values ++ "\x7d")
        else
          match jsRepeatSpaces (indentTimes indent level),
              jsRepeatSpaces (indentTimes indent (level - 1)) with
          | .ok s1, .ok s2 => .ok ("\x7b\n" ++ s1 ++ values ++ "\n" ++ s2 ++ "\x7d")
          | _, _ => .error .invalidValues
  | .prim (.str s), _, _ => .ok ("'" ++ s ++ "'")
  | .prim v, _, _ => .ok (jsToString v)

/-- `object.map(value => objectToHRONValues(value, indent, level)).join(",")`. -/
def objectToHRONValuesList : List JSObj → HRONIndent → Int → Except Err String
  | [], _, _ => .ok ""
  | [x], indent, level => objectToHRONValuesSome x indent level
  | x :: y :: rest, indent, level =>
    match objectToHRONValuesSome x indent level with
    | .error e => .error e
    | .ok s =>
      match objectToHRONValuesList (y :: rest) indent level with
      | .error e => .error e
      | .ok t => .ok (s ++ "," ++ t)

/-- `Object.values(object).map(...).join(",")`. -/
def objectToHRONValuesFields : List (String × JSObj) → HRONIndent → Int → Except Err String
  | [], _, _ => .ok ""
  | [(_, x)], indent, level => objectToHRONValuesSome x indent level
  | (_, x) :: f :: fields, indent, level =>
    match objectToHRONValuesSome x indent level with
    | .error e => .error e
    | .ok s =>
      match objectToHRONValuesFields (f :: fields) indent level with
      | .error e => .error e
      | .ok t => .ok (s ++ "," ++ t)

end

/-- `objectToHRONValues`: `undefined` input throws (caught into the
invalid-values error), otherwise render the value tree. -/
def objectToHRONValues : Option JSObj → HRONIndent → Int → Except Err String
  | none, _, _ => .error .invalidValues
  | some o, indent, level => objectToHRONValuesSome o indent level

/-- `toHRON`: compose the sliced schema string and value string.  (The
`keys || ""` / `values || ""` guards are identities on the success path.) -/
def toHRON (object : Option JSObj) (indent : HRONIndent) : Except Err String :=
  match objectToHRONKeys object none with
  | .error e => .error e
  | .ok keys =>
    match objectToHRONValues object indent 0 with
    | .error e => .error e
    | .ok values => .ok (sliceBracket keys ++ ": " ++ sliceBracket values)

/-- `stringify(object, options)`: the source forwards the whole `options`
object into the `indent : number` parameter of `toHRON` (bun does not
typecheck; `HRONParseOptions` does not exist in `translator.ts`). -/
def stringify (object : Option JSObj) (options : HRONParseOptions) : Except Err String :=
  toHRON object (.options options)

/-- The round trip of §8 of the spec: decode after encode. -/
def roundTrip (v : JSObj) (options : HRONParseOptions) : Except Err JSObj :=
  match stringify (some v) options with
  | .error e => .error e
  | .ok s => parse s

/-- The options of the round-trip and single-line claims:
`{indent: 0, colorize: false}`. -/
def indent0 : HRONParseOptions := ⟨0, false⟩

/-! ## The non-destroyed value class of the round-trip claim (C1)

A field name survives the trip exactly when it lexes back as a single
identifier that is not a keyword; a scalar survives when its printed form
lexes back to the same token: a nonnegative integer number small enough
that `String(n)` is its exact positional decimal spelling, a string
without quote characters that is not mistaken for an opening bracket at
the start of a value block, or the boolean `false` (the builder turns
every boolean token into `false`, so `true` does not survive). -/

/-- The name lexes back as one IDENT token: a letter or underscore
followed by letters, digits or underscores, and not a keyword. -/
def validIdentifier (k : String) : Bool :=
  match k.data with
  | [] => false
  | c :: cs => isLetter c && cs.all isLetterDigit && !(isBool k) && !(isNull k)

/-- A scalar whose printed literal lexes back to itself.  Numbers are
restricted to nonnegative integers below `2 ^ 53 = 9007199254740992`: in
that range every integer is an exact float64 and `String(n)` prints its
exact positional decimal digits, so the `ℚ` model of `jsNumToString` is
observationally equal to the source.  (From `2 ^ 53` float64 rounding sets
in, and from `1e21` `String` switches to exponential notation such as
`"1e+21"`, whose `+` the lexer rejects — those numbers are outside the
class.) -/
def safeScalar : JSValue → Bool
  | .num q => q.den = 1 && 0 ≤ q.num && q.num < 9007199254740992
  | .bool b => !b
  | .str s => s.data.all (fun c => !(isQuote c)) && !(s = "\x7b") && !(s = "[")
  | _ => false

/-- The literal spelling of a scalar in the value emitter. -/
def litStr (p : JSValue) : String :=
  match p with
  | .str s => "'" ++ s ++ "'"
  | _ => jsToString p

/-- The token the lexer produces back from `litStr p`. -/
def litToken (p : JSValue) : Token :=
  match p with
  | .str s => ⟨.STRING, .str s⟩
  | .num q => ⟨.NUMBER, .num q⟩
  | .nan => ⟨.NUMBER, .nan⟩
  | .bool b => ⟨.BOOL, .bool b⟩
  | .null => ⟨.NULL, .null⟩

/-- The value node the builder produces from `litToken p` (booleans
collapse to `false`). -/
def litNode (p : JSValue) : ValueNode :=
  match p with
  | .str s => .node .String (.str s) []
  | .num q => .node .Number (.num q) []
  | .nan => .node .Number .nan []
  | .bool _ => .node .Boolean (.bool false) []
  | .null => .node .Null .null []

/-- The node type tag of a scalar's value node. -/
def litKV (p : JSValue) : KVType :=
  match p with
  | .str _ => .String
  | .num _ => .Number
  | .nan => .Number
  | .bool _ => .Boolean
  | .null => .Null

/-- The scalar stored by the reconciler for `litNode p`. -/
def litValue (p : JSValue) : JSValue :=
  match p with
  | .bool _ => .bool false
  | q => q

/-- The token interleaving of a rendered list body: literals separated by
comma symbols. -/
def valueToks : List JSValue → List Token
  | [] => []
  | [p] => [litToken p]
  | p :: q :: ps => litToken p :: ⟨.SYMBOL, .str ","⟩ :: valueToks (q :: ps)

/-! ## The field-cycling document of §8 (claim C2)

The pipeline stages are evaluated one at a time (tokens, then the built
document, then the reconciled value); the claim theorem chains them. -/

/-- The token sequence of `users[{id,name}]: [{1,'a'},{2,'b'},{3,'c'}]`. -/
def usersTokens : List Token :=
  [⟨.IDENT, .str "users"⟩, ⟨.SYMBOL, .str "["⟩, ⟨.SYMBOL, .str "\x7b"⟩,
    ⟨.IDENT, .str "id"⟩, ⟨.SYMBOL, .str ","⟩, ⟨.IDENT, .str "name"⟩,
    ⟨.SYMBOL, .str "\x7d"⟩, ⟨.SYMBOL, .str "]"⟩, ⟨.SYMBOL, .str ":"⟩,
    ⟨.SYMBOL, .str "["⟩, ⟨.SYMBOL, .str "\x7b"⟩, ⟨.NUMBER, .num 1⟩,
    ⟨.SYMBOL, .str ","⟩, ⟨.STRING, .str "a"⟩, ⟨.SYMBOL, .str "\x7d"⟩,
    ⟨.SYMBOL, .str ","⟩, ⟨.SYMBOL, .str "\x7b"⟩, ⟨.NUMBER, .num 2⟩,
    ⟨.SYMBOL, .str ","⟩, ⟨.STRING, .str "b"⟩, ⟨.SYMBOL, .str "\x7d"⟩,
    ⟨.SYMBOL, .str ","⟩, ⟨.SYMBOL, .str "\x7b"⟩, ⟨.NUMBER, .num 3⟩,
    ⟨.SYMBOL, .str ","⟩, ⟨.STRING, .str "c"⟩, ⟨.SYMBOL, .str "\x7d"⟩,
    ⟨.SYMBOL, .str "]"⟩]

/-- The document the builder produces for `usersTokens`. -/
def usersDocument : DocumentNode :=
  ⟨.node .List "users" [.node .Object "" [.node .String "id" [], .node .String "name" []]],
   [.node .List (.str "")
     [.node .Object (.str "") [.node .Number (.num 1) [], .node .String (.str "a") []],
      .node .Object (.str "") [.node .Number (.num 2) [], .node .String (.str "b") []],
      .node .Object (.str "") [.node .Number (.num 3) [], .node .String (.str "c") []]]]⟩

/-- The expected decode of the field-cycling document. -/
def usersValue : JSObj :=
  .obj [("users", .arr
    [.obj [("id", .prim (.num 1)), ("name", .prim (.str "a"))],
     .obj [("id", .prim (.num 2)), ("name", .prim (.str "b"))],
     .obj [("id", .prim (.num 3)), ("name", .prim (.str "c"))]])]

/-! ## Newline-free values (claim C8)

`noNewlines v` says no string or field name anywhere in `v` contains a
newline character. -/

def noNLStr (s : String) : Bool := s.data.all (fun c => !(c = '\n'))

mutual

def noNewlines : JSObj → Bool
  | .obj fields => noNewlinesFields fields
  | .arr elems => noNewlinesList elems
  | .prim (.str s) => noNLStr s
  | .prim _ => true

def noNewlinesFields : List (String × JSObj) → Bool
  | [] => true
  | (k, v) :: fs => noNLStr k && noNewlines v && noNewlinesFields fs

def noNewlinesList : List JSObj → Bool
  | [] => true
  | x :: xs => noNewlines x && noNewlinesList xs

end

/-- The tokenize loop started anywhere in the input, with the canonical
fuel. -/
def tokenizeFrom (l : List Char) (pos : Nat) : Except Err (List Token) :=
  tokenizeGo (l.length + 1) l pos

/-- The comma-joined literal rendering of a list of scalars, as the value
emitter produces it. -/
def litList : List JSValue → String
  | [] => ""
  | [p] => litStr p
  | p :: q :: ps => litStr p ++ "," ++ litList (q :: ps)

/-! ## One-step equations of the fueled recursions -/

theorem length_dropWhile_le (p : α → Bool) (l : List α) :
    (l.dropWhile p).length ≤ l.length := by
  induction l with
  | nil => simp
  | cons a l ih =>
    rw [List.dropWhile_cons]
    split
    · exact Nat.le_succ_of_le ih
    · exact Nat.le_refl _

theorem tokenizeGo_succ (fuel : Nat) :
    tokenizeGo (fuel + 1) = tokenizeStep (tokenizeGo fuel) := rfl

theorem parseKeyNode_succ (tokens : List Token) (fuel pos : Nat) :
    parseKeyNode tokens (fuel + 1) pos =
      parseKeyNodeStep tokens (readKeyItems tokens fuel) pos := rfl

theorem readKeyItems_succ (tokens : List Token) (fuel pos : Nat) (endSymbol : String) :
    readKeyItems tokens (fuel + 1) pos endSymbol =
      readKeyItemsStep tokens (parseKeyNode tokens fuel) (readKeyItems tokens fuel)
        pos endSymbol := rfl

theorem parseValueNode_succ (tokens : List Token) (fuel pos : Nat) :
    parseValueNode tokens (fuel + 1) pos =
      parseValueNodeStep tokens (readValueItems tokens fuel) pos := rfl

theorem readValueItems_succ (tokens : List Token) (fuel pos : Nat) (endSymbol : String) :
    readValueItems tokens (fuel + 1) pos endSymbol =
      readValueItemsStep tokens (parseValueNode tokens fuel) (readValueItems tokens fuel)
        pos endSymbol := rfl

theorem materialize_succ (arena : Arena) (fuel : Nat) :
    materialize arena (fuel + 1) = materializeStep arena (materialize arena fuel) := rfl

theorem usersTokens_spec :
    tokenize "users[\x7bid,name\x7d]: [\x7b1,'a'\x7d,\x7b2,'b'\x7d,\x7b3,'c'\x7d]" =
      .ok usersTokens := rfl

theorem usersDocument_spec : build usersTokens 0 = .ok (usersDocument, 0) := rfl

theorem usersValue_spec : toObject usersDocument = .ok usersValue := rfl

/-! ## Claim theorems -/

/-- C2: decoding `users[{id,name}]: [{1,'a'},{2,'b'},{3,'c'}]` assigns the
field names `id`, `name` cyclically through the per-depth cursor, yielding
`{users: [{id:1, name:'a'}, {id:2, name:'b'}, {id:3, name:'c'}]}`. -/
theorem field_cycling_users_decode :
    parse "users[\x7bid,name\x7d]: [\x7b1,'a'\x7d,\x7b2,'b'\x7d,\x7b3,'c'\x7d]" =
      .ok usersValue := by
  simp only [parse, parseCall, usersTokens_spec, usersDocument_spec, usersValue_spec]

/-- C3 (counterexample): decoding `items[{id}]: [5]` — a bare number where
the schema declares an object — does *not* fail with a schema mismatch; it
succeeds with `{items: [5]}`, because entries whose data parent is a List
are attached positionally before any type check runs. -/
theorem list_element_mismatch_not_raised :
    parse "items[\x7bid\x7d]: [5]" = .ok (.obj [("items", .arr [.prim (.num 5)])]) := rfl

/-- C3 (amended): the List/Object mismatch check fires only for a data
entry attached to a *mapping* parent — `a{b{c}}: {5}` fails naming the
field `b`, the declared kind Object and the actual kind Number — while a
data entry inside a List is attached without any check, so
`items[{id}]: [5]` decodes to `{items: [5]}`. -/
theorem schema_mismatch_object_parent_only :
    parse "a\x7bb\x7bc\x7d\x7d: \x7b5\x7d" = .error (.typeMismatch 2 "b" .Object .Number) ∧
    parse "items[\x7bid\x7d]: [5]" = .ok (.obj [("items", .arr [.prim (.num 5)])]) :=
  ⟨rfl, rfl⟩

/-- C4 (counterexample): decoding schema `{a}` with data `{1,2}` does
*not* fail with an extra-values error: the depth-2 cursor wraps around and
the second value overwrites field `a`, so the decode succeeds with
`{"": {a: 2}}` and no entry is left over. -/
theorem extra_values_example_decodes :
    parse "\x7ba\x7d: \x7b1,2\x7d" = .ok (.obj [("", .obj [("a", .prim (.num 2))])]) := rfl

/-- C4 (amended): after the reconciliation walk, leftover data entries do
fail with the extra-values error reporting their count — but only entries
too deep for the final schema entry to pull remain, e.g. `a: [[5]]` leaves
one; schema `{a}` with data `{1,2}` leaves none, since the wrapped cursor
consumes (and overwrites) the second entry. -/
theorem extra_values_deep_leftover :
    parse "a: [[5]]" = .error (.extraValues 1) ∧
    parse "\x7ba\x7d: \x7b1,2\x7d" = .ok (.obj [("", .obj [("a", .prim (.num 2))])]) :=
  ⟨rfl, rfl⟩

/-- C5: the builder's position is *not* reset by a failed parse: a fresh
instance parses `b: 1` to `{b: 1}`, but after `parse "a:"` fails (leaving
position 2), the same instance rejects `b: 1` with an unexpected-token
error — the result of `parse(s2)` depends on the preceding failed call. -/
theorem parser_position_leaks :
    parse "b: 1" = .ok (.obj [("b", .prim (.num 1))]) ∧
    parseCall 0 "a:" = (.error (.eofValueBlock 2), 2) ∧
    (parseCall 2 "b: 1").1 = .error (.unexpectedKeyToken .NUMBER (.num 1) 2) :=
  ⟨rfl, rfl, rfl⟩

/-- C6: a value block consisting of the single literal `null` is rejected
(`parseValueBlock` admits only STRING, NUMBER and BOOL literals), although
`null` parses fine as a value *node* inside a composite: `x: null` throws
while `x[]: [null]` decodes to `{x: [null]}`. -/
theorem null_value_block_rejected :
    parse "x: null" = .error (.unexpectedValueBlockStart .null .NULL 2) ∧
    parse "x[]: [null]" = .ok (.obj [("x", .arr [.prim .null])]) :=
  ⟨rfl, rfl⟩

/-- C7 (counterexample): encoding `{a: [], b: {}}` fails with the
invalid-keys error: the schema emitter takes `[0]` of the empty list as
its representative element, which is `undefined`. -/
theorem empty_list_encode_fails :
    stringify (some (.obj [("a", .arr []), ("b", .obj [])])) indent0 =
      .error (.invalidKeys none) := rfl

/-- C7 (amended): the empty-object half of the claim holds — `{b: {}}`
encodes to `b{}: {\n\n}` and decodes back to `{b: {}}` — and the value
emitter does render a reached empty list literally as `[]`; but the
claim's example value `{a: [], b: {}}` itself cannot be encoded, because
the schema emitter takes element `[0]` of the empty list under `a` as its
representative shape and the recursion on that missing element fails.
Only representative positions are visited: the empty list at index 1 of
`{a: [1, []]}` is never reached by the schema emitter, so that value
encodes (to `a[]: \n[\n1,[]\n]\n`, the `[]` rendered literally) and round
trips. -/
theorem empty_object_roundtrip :
    stringify (some (.obj [("b", .obj [])])) indent0 = .ok "b\x7b\x7d: \x7b\n\n\x7d" ∧
    parse "b\x7b\x7d: \x7b\n\n\x7d" = .ok (.obj [("b", .obj [])]) ∧
    objectToHRONValues (some (.arr [])) (.options indent0) 1 = .ok "[]" ∧
    stringify (some (.obj [("a", .arr [.prim (.num 1), .arr []])])) indent0 =
      .ok "a[]: \n[\n1,[]\n]\n" ∧
    roundTrip (.obj [("a", .arr [.prim (.num 1), .arr []])]) indent0 =
      .ok (.obj [("a", .arr [.prim (.num 1), .arr []])]) :=
  ⟨rfl, rfl, rfl, rfl, rfl⟩

/-- C8 (counterexample): `stringify({a: 1}, {indent: 0, colorize: false})`
returns `"a: \n1\n"`, which contains newline characters: the options
object (not its `indent` field) reaches the renderer, where `object < 1`
is `NaN < 1`, i.e. false, so the multi-line branch is taken with
zero-width indentation. -/
theorem stringify_indent0_contains_newline :
    stringify (some (.obj [("a", .prim (.num 1))])) indent0 = .ok "a: \n1\n" ∧
    '\n' ∈ ("a: \n1\n").data :=
  ⟨rfl, by decide⟩

/-- C10: the value emitter decides "empty object" by `length === 0`: a
non-array object whose `length` property is the number 0 renders as `{}`
regardless of indent and level, discarding its other fields, while the
genuinely empty `{}` (no `length` property) does not take this branch and
renders multi-line. -/
theorem length_zero_property_collapses :
    (∀ (ind : HRONIndent) (lvl : Int),
      objectToHRONValues (some (.obj [("length", .prim (.num 0)), ("a", .prim (.num 1))]))
        ind lvl = .ok "\x7b\x7d") ∧
    objectToHRONValues (some (.obj [])) (.options indent0) 0 = .ok "\x7b\n\n\x7d" :=
  ⟨fun _ _ => rfl, rfl⟩

/-! ## Induction principle for value trees -/

theorem JSObj.induct (motive : JSObj → Prop)
    (hobj : ∀ fields, (∀ p ∈ fields, motive p.2) → motive (.obj fields))
    (harr : ∀ elems, (∀ x ∈ elems, motive x) → motive (.arr elems))
    (hprim : ∀ v, motive (.prim v)) : ∀ v, motive v := by
  have main : ∀ (n : Nat) (v : JSObj), sizeOf v ≤ n → motive v := by
    intro n
    induction n with
    | zero =>
      intro v h
      cases v <;> simp_arith at h
    | succ n ih =>
      intro v h
      cases v with
      | obj fields =>
        refine hobj fields (fun p hp => ih p.2 ?_)
        have h1 : sizeOf p < sizeOf fields := List.sizeOf_lt_of_mem hp
        have h2 : sizeOf p.2 < sizeOf p := by
          obtain ⟨a, b⟩ := p
          simp_arith
        simp_arith at h
        omega
      | arr elems =>
        refine harr elems (fun x hx => ih x ?_)
        have h1 : sizeOf x < sizeOf elems := List.sizeOf_lt_of_mem hx
        simp_arith at h
        omega
      | prim v => exact hprim v
  exact fun v => main (sizeOf v) v (Nat.le_refl _)

theorem noNewlinesList_mem :
    ∀ (xs : List JSObj), noNewlinesList xs = true → ∀ x ∈ xs, noNewlines x = true := by
  intro xs
  induction xs with
  | nil => intro _ x hx; simp at hx
  | cons y ys ih =>
    intro h x hx
    rw [noNewlinesList] at h
    simp only [Bool.and_eq_true] at h
    rcases List.mem_cons.mp hx with hx | hx
    · subst hx; exact h.1
    · exact ih h.2 x hx

theorem noNewlinesFields_mem :
    ∀ (fs : List (String × JSObj)), noNewlinesFields fs = true →
      ∀ p ∈ fs, noNLStr p.1 = true ∧ noNewlines p.2 = true := by
  intro fs
  induction fs with
  | nil => intro _ p hp; simp at hp
  | cons q qs ih =>
    intro h p hp
    obtain ⟨k, v⟩ := q
    rw [noNewlinesFields] at h
    simp only [Bool.and_eq_true] at h
    rcases List.mem_cons.mp hp with hp | hp
    · subst hp; exact ⟨h.1.1, h.1.2⟩
    · exact ih h.2 p hp

/-! ## Character facts about printed numbers -/

theorem digit_char_props (d : Nat) (h : d < 10) :
    (Char.ofNat (48 + d)).toNat = 48 + d ∧
    Char.ofNat (48 + d) ≠ '\n' ∧
    isDigit (Char.ofNat (48 + d)) = true ∧
    isLetterDigit (Char.ofNat (48 + d)) = true ∧
    isWhitespace (Char.ofNat (48 + d)) = false ∧
    isComment (Char.ofNat (48 + d)) = false ∧
    ¬(Char.ofNat (48 + d) ∈ validSymbols) ∧
    isQuote (Char.ofNat (48 + d)) = false ∧
    isLetter (Char.ofNat (48 + d)) = false := by
  interval_cases d <;> exact (by decide)

theorem natDigitsGo_mem :
    ∀ (fuel n : Nat) (c : Char), c ∈ natDigitsGo fuel n →
      ∃ d, d < 10 ∧ c = Char.ofNat (48 + d) := by
  intro fuel
  induction fuel with
  | zero => intro n c h; simp [natDigitsGo] at h
  | succ fuel ih =>
    intro n c h
    rw [natDigitsGo] at h
    by_cases hn : n < 10
    · rw [if_pos hn] at h
      simp at h
      exact ⟨n, hn, h⟩
    · rw [if_neg hn] at h
      simp at h
      rcases h with h | h
      · exact ih _ c h
      · exact ⟨n % 10, Nat.mod_lt _ (by omega), h⟩

theorem natDigits_mem (n : Nat) (c : Char) (h : c ∈ natDigits n) :
    ∃ d, d < 10 ∧ c = Char.ofNat (48 + d) :=
  natDigitsGo_mem _ _ _ h

theorem jsIntRepr_ne_nl (i : Int) (c : Char) (h : c ∈ (jsIntRepr i).data) : c ≠ '\n' := by
  rw [jsIntRepr] at h
  by_cases hneg : i < 0
  · rw [if_pos hneg] at h
    simp only [String.mk] at h
    rcases List.mem_cons.mp h with h | h
    · subst h; decide
    · obtain ⟨d, hd, rfl⟩ := natDigits_mem _ _ h
      exact (digit_char_props d hd).2.1
  · rw [if_neg hneg] at h
    obtain ⟨d, hd, rfl⟩ := natDigits_mem _ _ h
    exact (digit_char_props d hd).2.1

theorem jsNumToString_ne_nl (q : ℚ) (c : Char) (h : c ∈ (jsNumToString q).data) :
    c ≠ '\n' := by
  rintro rfl
  rw [jsNumToString] at h
  by_cases hden : q.den = 1
  · rw [if_pos hden] at h
    exact jsIntRepr_ne_nl _ _ h rfl
  · rw [if_neg hden] at h
    simp only [String.mk] at h
    have hdig : ∀ hh : '\n' ∈
        List.replicate (decExponent q + 1 -
            (natDigits (q * 10 ^ decExponent q).num.natAbs).length) '0' ++
          natDigits (q * 10 ^ decExponent q).num.natAbs, False := by
      intro hh
      rcases List.mem_append.mp hh with h'' | h''
      · have := List.eq_of_mem_replicate h''
        simp at this
      · obtain ⟨d, hd, hc⟩ := natDigits_mem _ _ h''
        exact (digit_char_props d hd).2.1 hc.symm
    rcases List.mem_append.mp h with h | h
    · rcases List.mem_append.mp h with h | h
      · rcases List.mem_append.mp h with h | h
        · by_cases hq : q < 0
          · rw [if_pos hq] at h
            simp at h
          · rw [if_neg hq] at h
            simp at h
        · exact hdig (List.mem_of_mem_take h)
      · simp at h
    · exact hdig (List.mem_of_mem_drop h)

theorem jsToString_ne_nl (v : JSValue) (hs : ∀ s, v ≠ .str s) (c : Char)
    (h : c ∈ (jsToString v).data) : c ≠ '\n' := by
  rintro rfl
  cases v with
  | str s => exact absurd rfl (hs s)
  | num q => exact jsNumToString_ne_nl q _ h rfl
  | nan => exact absurd h (by decide)
  | bool b => cases b <;> exact absurd h (by decide)
  | null => exact absurd h (by decide)

/-! ## Printed naturals lex back to themselves -/

theorem natDigitsGo_ne_nil (fuel n : Nat) : natDigitsGo (fuel + 1) n ≠ [] := by
  rw [natDigitsGo]
  by_cases h : n < 10
  · simp [h]
  · simp [h]

theorem digitVal_append_digit (l : List Char) (c : Char) :
    digitVal (l ++ [c]) = digitVal l * 10 + (c.toNat - 48) := by
  rw [digitVal, List.foldl_append]
  rfl

theorem digitVal_natDigitsGo :
    ∀ (fuel n : Nat), n < 10 ^ fuel → digitVal (natDigitsGo fuel n) = n := by
  intro fuel
  induction fuel with
  | zero => intro n h; simp at h; subst h; rfl
  | succ fuel ih =>
    intro n h
    rw [natDigitsGo]
    by_cases hn : n < 10
    · rw [if_pos hn]
      have := (digit_char_props n hn).1
      simp [digitVal, this]
    · rw [if_neg hn]
      rw [digitVal_append_digit]
      have hdiv : n / 10 < 10 ^ fuel := by
        rw [Nat.div_lt_iff_lt_mul (by omega)]
        calc n < 10 ^ (fuel + 1) := h
        _ = 10 ^ fuel * 10 := by ring
      rw [ih (n / 10) hdiv]
      have := (digit_char_props (n % 10) (Nat.mod_lt _ (by omega))).1
      rw [this]
      omega

theorem digitVal_natDigits (n : Nat) : digitVal (natDigits n) = n := by
  rw [natDigits]
  refine digitVal_natDigitsGo _ _ ?_
  calc n < 10 ^ n := Nat.lt_pow_self (by norm_num) n
  _ ≤ 10 ^ (n + 1) := Nat.pow_le_pow_right (by norm_num) (Nat.le_succ n)

theorem splitOn_no_dot :
    ∀ (l : List Char), (∀ c ∈ l, ¬(c = '.')) → l.splitOn '.' = [l] := by
  intro l
  induction l with
  | nil => intro _; simp
  | cons c rest ih =>
    intro h
    have hc : ¬(c = '.') := h c (by simp)
    rw [List.splitOn, List.splitOnP_cons]
    have hb : (c == '.') = false := by simp [hc]
    rw [hb]
    simp only [Bool.false_eq_true, if_false]
    have := ih (fun d hd => h d (by simp [hd]))
    rw [List.splitOn] at this
    rw [this]
    rfl

theorem natDigits_no_dot (n : Nat) : ∀ c ∈ natDigits n, ¬(c = '.') := by
  intro c hc
  obtain ⟨d, hd, rfl⟩ := natDigits_mem _ _ hc
  have := (digit_char_props d hd).1
  intro heq
  rw [heq] at this
  have h46 : ('.').toNat = 46 := rfl
  omega

theorem jsNumOfRun_natDigits (n : Nat) :
    jsNumOfRun (natDigits n) = .num (n : ℚ) := by
  rw [jsNumOfRun, splitOn_no_dot _ (natDigits_no_dot n)]
  simp [digitVal_natDigits]

/-- A nonnegative integer rational prints as its digit string. -/
theorem jsNumToString_natural (q : ℚ) (hden : q.den = 1) (hnum : 0 ≤ q.num) :
    jsNumToString q = String.mk (natDigits q.num.natAbs) := by
  rw [jsNumToString, if_pos hden, jsIntRepr, if_neg (by omega)]

theorem natCast_natAbs_of_nonneg (i : Int) (h : 0 ≤ i) : ((i.natAbs : Nat) : ℚ) = (i : ℚ) := by
  rw [Int.cast_natAbs]
  simp [abs_of_nonneg, h]

/-! ## Character classes of identifier letters -/

theorem letter_not_special (c : Char) (h : isLetter c = true) :
    isWhitespace c = false ∧ isComment c = false ∧ ¬(c ∈ validSymbols) ∧
    isQuote c = false ∧ isDigit c = false := by
  have hn : (65 ≤ c.toNat ∧ c.toNat ≤ 90) ∨ (97 ≤ c.toNat ∧ c.toNat ≤ 122) ∨ c.toNat = 95 := by
    simpa [isLetter] using h
  refine ⟨?_, ?_, ?_, ?_, ?_⟩
  · simp only [isWhitespace, decide_eq_false_iff_not]
    rintro (rfl | rfl | rfl | rfl) <;> exact absurd h (by decide)
  · simp only [isComment, decide_eq_false_iff_not]
    omega
  · intro hmem
    simp only [validSymbols, List.mem_cons, List.not_mem_nil, or_false] at hmem
    rcases hmem with rfl | rfl | rfl | rfl | rfl | rfl | rfl <;> exact absurd h (by decide)
  · simp only [isQuote, decide_eq_false_iff_not]
    omega
  · simp only [isDigit, decide_eq_false_iff_not]
    omega

theorem not_quote_ne (x c : Char) (hq : isQuote c = true) (h : isQuote x = false) :
    (x = c) = False := by
  simp only [eq_iff_iff, iff_false]
  rintro rfl
  rw [h] at hq
  exact absurd hq (by decide)

/-! ## `takeWhile`/`dropWhile` across a run boundary -/

theorem takeWhile_append_of (p : α → Bool) :
    ∀ (l1 l2 : List α), (∀ x ∈ l1, p x = true) →
      (∀ d, l2.head? = some d → p d = false) →
      (l1 ++ l2).takeWhile p = l1 ∧ (l1 ++ l2).dropWhile p = l2 := by
  intro l1
  induction l1 with
  | nil =>
    intro l2 _ h2
    cases l2 with
    | nil => exact ⟨rfl, rfl⟩
    | cons d t =>
      have := h2 d rfl
      constructor
      · rw [List.nil_append, List.takeWhile_cons, this]
        simp
      · rw [List.nil_append, List.dropWhile_cons, this]
        simp
  | cons a t ih =>
    intro l2 h1 h2
    have ha := h1 a (by simp)
    obtain ⟨iht, ihd⟩ := ih l2 (fun x hx => h1 x (by simp [hx])) h2
    constructor
    · rw [List.cons_append, List.takeWhile_cons, ha, iht]
      simp
    · rw [List.cons_append, List.dropWhile_cons, ha, ihd]
      simp

/-! ## Tokenizer: fuel irrelevance -/

theorem tokenizeStep_congr (ih1 ih2 : List Char → Nat → Except Err (List Token))
    (l : List Char) (pos : Nat)
    (h : ∀ l' pos', l'.length < l.length → ih1 l' pos' = ih2 l' pos') :
    tokenizeStep ih1 l pos = tokenizeStep ih2 l pos := by
  cases l with
  | nil => rfl
  | cons c rest =>
    simp only [tokenizeStep]
    by_cases h1 : isWhitespace c = true
    · simp only [if_pos h1]
      exact h rest (pos + 1) (by simp)
    · simp only [if_neg h1]
      by_cases h2 : isComment c = true
      · simp only [if_pos h2]
        cases hdw : rest.dropWhile (fun d => !(d = '\n')) with
        | nil => rfl
        | cons x rest' =>
          have hle := length_dropWhile_le (fun d => !(d = '\n')) rest
          rw [hdw] at hle
          exact h rest' _ (by simp at hle ⊢; omega)
      · simp only [if_neg h2]
        by_cases h3 : c ∈ validSymbols
        · simp only [if_pos h3]
          rw [h rest (pos + 1) (by simp)]
        · simp only [if_neg h3]
          by_cases h4 : isQuote c = true
          · simp only [if_pos h4]
            cases hdw : rest.dropWhile (fun d => !(d = c)) with
            | nil => rfl
            | cons x rest' =>
              have hle := length_dropWhile_le (fun d => !(d = c)) rest
              rw [hdw] at hle
              exact congrArg (Except.map _) (h rest' _ (by simp at hle ⊢; omega))
          · simp only [if_neg h4]
            by_cases h5 : isDigit c = true
            · simp only [if_pos h5]
              have hle := length_dropWhile_le isDigit rest
              rw [h (rest.dropWhile isDigit) _ (by simp; omega)]
            · simp only [if_neg h5]
              by_cases h6 : isLetter c = true
              · simp only [if_pos h6]
                have hle := length_dropWhile_le isLetterDigit rest
                rw [h (rest.dropWhile isLetterDigit) _ (by simp; omega)]
              · simp only [if_neg h6]

theorem tokenizeGo_fuel : ∀ (f1 f2 : Nat) (l : List Char) (pos : Nat),
    l.length < f1 → l.length < f2 → tokenizeGo f1 l pos = tokenizeGo f2 l pos := by
  intro f1
  induction f1 with
  | zero => intro f2 l pos h1 _; omega
  | succ f ih =>
    intro f2 l pos h1 h2
    cases f2 with
    | zero => omega
    | succ g =>
      rw [tokenizeGo_succ, tokenizeGo_succ]
      exact tokenizeStep_congr _ _ l pos (fun l' pos' hl => ih g l' pos' (by omega) (by omega))

theorem tokenize_eq_tokenizeFrom (input : String) :
    tokenize input = tokenizeFrom input.data 0 := rfl

theorem tokenizeFrom_nil (pos : Nat) : tokenizeFrom [] pos = .ok [] := rfl

theorem tokenizeFrom_ws (c : Char) (l : List Char) (pos : Nat) (h : isWhitespace c = true) :
    tokenizeFrom (c :: l) pos = tokenizeFrom l (pos + 1) := by
  show tokenizeGo (l.length + 1 + 1) (c :: l) pos = _
  rw [tokenizeGo_succ]
  show tokenizeStep (tokenizeGo (l.length + 1)) (c :: l) pos = _
  simp only [tokenizeStep, if_pos h]
  rfl

theorem tokenizeFrom_symbol (c : Char) (l : List Char) (pos : Nat)
    (h1 : isWhitespace c = false) (h2 : isComment c = false) (h3 : c ∈ validSymbols) :
    tokenizeFrom (c :: l) pos =
      (tokenizeFrom l (pos + 1)).map (createSymbolToken (String.mk [c]) :: ·) := by
  show tokenizeGo (l.length + 1 + 1) (c :: l) pos = _
  rw [tokenizeGo_succ]
  show tokenizeStep (tokenizeGo (l.length + 1)) (c :: l) pos = _
  simp only [tokenizeStep, h1, h2, if_pos h3, Bool.false_eq_true, if_false]
  rfl

theorem tokenizeFrom_letterRun (c : Char) (cs rest : List Char) (pos : Nat)
    (hc : isLetter c = true) (hcs : ∀ x ∈ cs, isLetterDigit x = true)
    (hrest : ∀ d, rest.head? = some d → isLetterDigit d = false) :
    tokenizeFrom ((c :: cs) ++ rest) pos =
      (tokenizeFrom rest (pos + (c :: cs).length)).map
        ((if isBool (String.mk (c :: cs)) then
            createBoolToken (String.mk (c :: cs) = "true")
          else if isNull (String.mk (c :: cs)) then createNullToken
          else createIdentToken (String.mk (c :: cs))) :: ·) := by
  obtain ⟨hw, hcm, hsym, hq, hd⟩ := letter_not_special c hc
  obtain ⟨htw, hdw⟩ := takeWhile_append_of isLetterDigit cs rest hcs hrest
  show tokenizeGo ((c :: cs ++ rest).length + 1) ((c :: cs) ++ rest) pos = _
  rw [List.cons_append, show (c :: (cs ++ rest)).length + 1 = (cs ++ rest).length + 1 + 1 by simp,
    tokenizeGo_succ]
  show tokenizeStep (tokenizeGo ((cs ++ rest).length + 1)) (c :: (cs ++ rest)) pos = _
  simp only [tokenizeStep, hw, hcm, hq, hd, if_neg hsym, Bool.false_eq_true, if_false, if_pos hc,
    htw, hdw]
  rw [tokenizeGo_fuel ((cs ++ rest).length + 1) (rest.length + 1) rest _ (by simp; omega)
    (by omega)]
  rfl

theorem tokenizeFrom_ident (k : String) (rest : List Char) (pos : Nat)
    (hk : validIdentifier k = true)
    (hrest : ∀ d, rest.head? = some d → isLetterDigit d = false) :
    tokenizeFrom (k.data ++ rest) pos =
      (tokenizeFrom rest (pos + k.length)).map (⟨.IDENT, .str k⟩ :: ·) := by
  rw [validIdentifier] at hk
  cases hdata : k.data with
  | nil => rw [hdata] at hk; simp at hk
  | cons c cs =>
    rw [hdata] at hk
    simp only [Bool.and_eq_true, Bool.not_eq_true', List.all_eq_true] at hk
    obtain ⟨⟨⟨hc, hcs⟩, hb⟩, hn⟩ := hk
    have hmk : String.mk (c :: cs) = k := by rw [← hdata]
    have hrun := tokenizeFrom_letterRun c cs rest pos hc (fun x hx => hcs x hx) hrest
    rw [hmk] at hrun
    rw [hrun, hb, hn]
    simp only [Bool.false_eq_true, if_false]
    have hlen : (c :: cs).length = k.length := by rw [← hdata]; rfl
    rw [hlen]
    rfl

theorem tokenizeFrom_digitRun (c : Char) (cs rest : List Char) (pos : Nat)
    (hall : ∀ x ∈ (c :: cs), ∃ d, d < 10 ∧ x = Char.ofNat (48 + d))
    (hrest : ∀ d, rest.head? = some d → isDigit d = false) :
    tokenizeFrom ((c :: cs) ++ rest) pos =
      (tokenizeFrom rest (pos + (c :: cs).length)).map
        (createNumberToken (jsNumOfRun (c :: cs)) :: ·) := by
  obtain ⟨d0, hd0, hc⟩ := hall c (by simp)
  have props := digit_char_props d0 hd0
  have hw : isWhitespace c = false := by rw [hc]; exact props.2.2.2.2.1
  have hcm : isComment c = false := by rw [hc]; exact props.2.2.2.2.2.1
  have hsym : ¬(c ∈ validSymbols) := by rw [hc]; exact props.2.2.2.2.2.2.1
  have hq : isQuote c = false := by rw [hc]; exact props.2.2.2.2.2.2.2.1
  have hdig : isDigit c = true := by rw [hc]; exact props.2.2.1
  have hcsd : ∀ x ∈ cs, isDigit x = true := by
    intro x hx
    obtain ⟨d, hd, hxe⟩ := hall x (by simp [hx])
    rw [hxe]
    exact (digit_char_props d hd).2.2.1
  obtain ⟨htw, hdw⟩ := takeWhile_append_of isDigit cs rest hcsd hrest
  show tokenizeGo ((c :: cs ++ rest).length + 1) ((c :: cs) ++ rest) pos = _
  rw [List.cons_append, show (c :: (cs ++ rest)).length + 1 = (cs ++ rest).length + 1 + 1 by simp,
    tokenizeGo_succ]
  show tokenizeStep (tokenizeGo ((cs ++ rest).length + 1)) (c :: (cs ++ rest)) pos = _
  simp only [tokenizeStep, hw, hcm, hq, hdig, if_neg hsym, Bool.false_eq_true, if_false,
    if_pos hdig, htw, hdw]
  rw [tokenizeGo_fuel ((cs ++ rest).length + 1) (rest.length + 1) rest _ (by simp; omega)
    (by omega)]
  rfl

theorem tokenizeFrom_strLit (s : String) (rest : List Char) (pos : Nat)
    (hs : ∀ x ∈ s.data, isQuote x = false) :
    tokenizeFrom ('\'' :: (s.data ++ ('\'' :: rest))) pos =
      (tokenizeFrom rest (pos + s.length + 2)).map (createStringToken s :: ·) := by
  have hp : ∀ x ∈ s.data, (fun d => !(decide (d = '\''))) x = true := by
    intro x hx
    have := not_quote_ne x '\'' (by decide) (hs x hx)
    simp [this]
  have hh : ∀ d, ('\'' :: rest).head? = some d → (fun d => !(decide (d = '\''))) d = false := by
    intro d hd
    simp only [List.head?_cons, Option.some.injEq] at hd
    subst hd
    simp
  obtain ⟨htw, hdw⟩ := takeWhile_append_of (fun d => !(decide (d = '\''))) s.data
    ('\'' :: rest) hp hh
  show tokenizeGo ((s.data ++ ('\'' :: rest)).length + 1 + 1) _ pos = _
  rw [tokenizeGo_succ]
  show tokenizeStep (tokenizeGo ((s.data ++ ('\'' :: rest)).length + 1))
    ('\'' :: (s.data ++ ('\'' :: rest))) pos = _
  simp only [tokenizeStep]
  rw [if_neg (by decide), if_neg (by decide), if_neg (by decide), if_pos (by decide : isQuote '\'' = true)]
  simp only [htw, hdw]
  rw [tokenizeGo_fuel ((s.data ++ ('\'' :: rest)).length + 1) (rest.length + 1) rest _
    (by simp; omega) (by omega)]
  show (tokenizeFrom rest (pos + s.data.length + 2)).map
      (createStringToken (String.mk s.data) :: ·) = _
  rfl

/-! ## Safe scalars lex back to their own token -/

theorem natDigits_ne_nil (n : Nat) : natDigits n ≠ [] := natDigitsGo_ne_nil n n

theorem safeScalar_num (q : ℚ) (h : safeScalar (.num q) = true) : q.den = 1 ∧ 0 ≤ q.num := by
  rw [safeScalar, Bool.and_eq_true, Bool.and_eq_true] at h
  exact ⟨of_decide_eq_true h.1.1, of_decide_eq_true h.1.2⟩

theorem safeScalar_str (s : String) (h : safeScalar (.str s) = true) :
    (∀ x ∈ s.data, isQuote x = false) ∧ s ≠ "\x7b" ∧ s ≠ "[" := by
  rw [safeScalar, Bool.and_eq_true, Bool.and_eq_true] at h
  obtain ⟨⟨h1, h2⟩, h3⟩ := h
  refine ⟨?_, ?_, ?_⟩
  · intro x hx
    have := List.all_eq_true.mp h1 x hx
    simpa using this
  · simpa using h2
  · simpa using h3

theorem safeScalar_bool (b : Bool) (h : safeScalar (.bool b) = true) : b = false := by
  cases b
  · rfl
  · exact absurd h (by decide)

theorem jsNum_lit_token (q : ℚ) (h1 : q.den = 1) (h2 : 0 ≤ q.num) :
    jsNumOfRun (natDigits q.num.natAbs) = .num q := by
  rw [jsNumOfRun_natDigits]
  congr 1
  rw [natCast_natAbs_of_nonneg _ h2]
  exact (Rat.den_eq_one_iff q).mp h1

theorem tokenizeFrom_lit (p : JSValue) (hp : safeScalar p = true) (rest : List Char) (pos : Nat)
    (hrest : ∀ d, rest.head? = some d → isLetterDigit d = false ∧ isDigit d = false) :
    ∃ pos', tokenizeFrom ((litStr p).data ++ rest) pos =
      (tokenizeFrom rest pos').map (litToken p :: ·) := by
  cases p with
  | str s =>
    obtain ⟨hq, _, _⟩ := safeScalar_str s hp
    refine ⟨pos + s.length + 2, ?_⟩
    have hdata : (litStr (.str s)).data ++ rest = '\'' :: (s.data ++ ('\'' :: rest)) := by
      show ("'" ++ s ++ "'").data ++ rest = _
      simp [List.append_assoc]
    rw [hdata, tokenizeFrom_strLit s rest pos hq]
    rfl
  | num q =>
    obtain ⟨h1, h2⟩ := safeScalar_num q hp
    have hL : litStr (.num q) = String.mk (natDigits q.num.natAbs) :=
      jsNumToString_natural q h1 h2
    cases hd : natDigits q.num.natAbs with
    | nil => exact absurd hd (natDigits_ne_nil _)
    | cons c cs =>
      refine ⟨pos + (c :: cs).length, ?_⟩
      have hdata : (litStr (.num q)).data = c :: cs := by rw [hL, hd]
      rw [hdata]
      have hall : ∀ x ∈ (c :: cs), ∃ d, d < 10 ∧ x = Char.ofNat (48 + d) := by
        intro x hx
        rw [← hd] at hx
        exact natDigits_mem _ _ hx
      rw [tokenizeFrom_digitRun c cs rest pos hall (fun d hd' => (hrest d hd').2)]
      rw [show (c :: cs) = natDigits q.num.natAbs from hd.symm, jsNum_lit_token q h1 h2]
      rfl
  | bool b =>
    have hb := safeScalar_bool b hp
    subst hb
    refine ⟨pos + 5, ?_⟩
    have hdata : (litStr (.bool false)).data ++ rest =
        ('f' :: ['a', 'l', 's', 'e']) ++ rest := rfl
    rw [hdata, tokenizeFrom_letterRun 'f' ['a', 'l', 's', 'e'] rest pos (by decide)
      (by decide) (fun d hd' => (hrest d hd').1)]
    rw [if_pos (by decide : isBool (String.mk ['f', 'a', 'l', 's', 'e']) = true)]
    rfl
  | nan => exact absurd hp (by decide)
  | null => exact absurd hp (by decide)

/-! ## Whole-document tokenization -/

theorem scalarDoc_toks (k : String) (p : JSValue) (hk : validIdentifier k = true)
    (hp : safeScalar p = true) (s : String)
    (hs : s.data = k.data ++ (':' :: ' ' :: '\n' :: ((litStr p).data ++ ['\n']))) :
    tokenize s = .ok [⟨.IDENT, .str k⟩, ⟨.SYMBOL, .str ":"⟩, litToken p] := by
  rw [tokenize_eq_tokenizeFrom, hs]
  rw [tokenizeFrom_ident k _ 0 hk
    (by intro d hd; rw [List.head?_cons, Option.some.injEq] at hd; subst hd; decide)]
  rw [tokenizeFrom_symbol ':' _ _ (by decide) (by decide) (by decide)]
  rw [tokenizeFrom_ws ' ' _ _ (by decide)]
  rw [tokenizeFrom_ws '\n' _ _ (by decide)]
  obtain ⟨pos', hlit⟩ := tokenizeFrom_lit p hp ['\n'] (0 + String.length k + 1 + 1 + 1)
    (by intro d hd; rw [List.head?_cons, Option.some.injEq] at hd; subst hd
        exact ⟨by decide, by decide⟩)
  rw [hlit, tokenizeFrom_ws '\n' _ _ (by decide), tokenizeFrom_nil]
  rfl

theorem listBody_toks : ∀ (ps : List JSValue) (pos : Nat), ps ≠ [] →
    (∀ p ∈ ps, safeScalar p = true) →
    tokenizeFrom ((litList ps).data ++ ('\n' :: ']' :: ['\n'])) pos =
      .ok (valueToks ps ++ [⟨.SYMBOL, .str "]"⟩]) := by
  intro ps
  induction ps with
  | nil => intro pos h; exact absurd rfl h
  | cons p t ih =>
    intro pos _ hall
    cases t with
    | nil =>
      show tokenizeFrom ((litStr p).data ++ _) pos = _
      obtain ⟨pos', hlit⟩ := tokenizeFrom_lit p (hall p (by simp)) ('\n' :: ']' :: ['\n']) pos
        (by intro d hd; rw [List.head?_cons, Option.some.injEq] at hd; subst hd
            exact ⟨by decide, by decide⟩)
      rw [hlit, tokenizeFrom_ws '\n' _ _ (by decide),
        tokenizeFrom_symbol ']' _ _ (by decide) (by decide) (by decide),
        tokenizeFrom_ws '\n' _ _ (by decide), tokenizeFrom_nil]
      rfl
    | cons q t' =>
      have hdata : (litList (p :: q :: t')).data ++ ('\n' :: ']' :: ['\n']) =
          (litStr p).data ++ (',' :: ((litList (q :: t')).data ++ ('\n' :: ']' :: ['\n']))) := by
        show (litStr p ++ "," ++ litList (q :: t')).data ++ _ = _
        simp [List.append_assoc]
      rw [hdata]
      obtain ⟨pos', hlit⟩ := tokenizeFrom_lit p (hall p (by simp))
        (',' :: ((litList (q :: t')).data ++ ('\n' :: ']' :: ['\n']))) pos
        (by intro d hd; rw [List.head?_cons, Option.some.injEq] at hd; subst hd
            exact ⟨by decide, by decide⟩)
      rw [hlit, tokenizeFrom_symbol ',' _ _ (by decide) (by decide) (by decide)]
      rw [ih _ (by simp) (fun x hx => hall x (by simp [hx]))]
      rfl

theorem listDoc_toks (k : String) (ps : List JSValue) (hk : validIdentifier k = true)
    (hne : ps ≠ []) (hall : ∀ p ∈ ps, safeScalar p = true) (s : String)
    (hs : s.data = k.data ++ ('[' :: ']' :: ':' :: ' ' :: '\n' :: '[' :: '\n' ::
      ((litList ps).data ++ ('\n' :: ']' :: ['\n'])))) :
    tokenize s = .ok ([⟨.IDENT, .str k⟩, ⟨.SYMBOL, .str "["⟩, ⟨.SYMBOL, .str "]"⟩,
      ⟨.SYMBOL, .str ":"⟩, ⟨.SYMBOL, .str "["⟩] ++ (valueToks ps ++ [⟨.SYMBOL, .str "]"⟩])) := by
  rw [tokenize_eq_tokenizeFrom, hs]
  rw [tokenizeFrom_ident k _ 0 hk
    (by intro d hd; rw [List.head?_cons, Option.some.injEq] at hd; subst hd; decide)]
  rw [tokenizeFrom_symbol '[' _ _ (by decide) (by decide) (by decide)]
  rw [tokenizeFrom_symbol ']' _ _ (by decide) (by decide) (by decide)]
  rw [tokenizeFrom_symbol ':' _ _ (by decide) (by decide) (by decide)]
  rw [tokenizeFrom_ws ' ' _ _ (by decide)]
  rw [tokenizeFrom_ws '\n' _ _ (by decide)]
  rw [tokenizeFrom_symbol '[' _ _ (by decide) (by decide) (by decide)]
  rw [tokenizeFrom_ws '\n' _ _ (by decide)]
  rw [listBody_toks ps _ hne hall]
  rfl

/-! ## Parser runs on the emitted token shapes -/

theorem peek_append (pre l : List Token) (i : Nat) :
    peek (pre ++ l) (pre.length + i) = l[i]? := by
  rw [peek, List.getElem?_append_right (by omega)]
  congr 1
  omega

theorem litToken_not_bracket (p : JSValue) (e : String) :
    isBracketToken (litToken p).type (litToken p).value e = false := by
  cases p <;> simp [isBracketToken, litToken]

theorem parseValueNode_lit (p : JSValue) (toks : List Token) (f pos : Nat)
    (hf : 1 ≤ f) (h : peek toks pos = some (litToken p)) :
    parseValueNode toks f pos = .ok (litNode p, pos + 1) := by
  obtain ⟨f, rfl⟩ : ∃ g, f = g + 1 := ⟨f - 1, by omega⟩
  rw [parseValueNode_succ]
  simp only [parseValueNodeStep, h, litToken_not_bracket, Bool.false_eq_true, if_false]
  cases p <;> rfl

theorem parseKeyNode_ident_scalar (k : String) (toks : List Token) (f pos : Nat)
    (hf : 1 ≤ f) (h : peek toks pos = some ⟨.IDENT, .str k⟩)
    (h2 : peek toks (pos + 1) = some ⟨.SYMBOL, .str ":"⟩) :
    parseKeyNode toks f pos = .ok (.node .String k [], pos + 1) := by
  obtain ⟨f, rfl⟩ : ∃ g, f = g + 1 := ⟨f - 1, by omega⟩
  rw [parseKeyNode_succ]
  simp only [parseKeyNodeStep, h, h2]
  simp [jsToString]

theorem parseKeyNode_ident_list (k : String) (toks : List Token) (f pos : Nat)
    (hf : 2 ≤ f) (h : peek toks pos = some ⟨.IDENT, .str k⟩)
    (h2 : peek toks (pos + 1) = some ⟨.SYMBOL, .str "["⟩)
    (h3 : peek toks (pos + 2) = some ⟨.SYMBOL, .str "]"⟩) :
    parseKeyNode toks f pos = .ok (.node .List k [], pos + 3) := by
  obtain ⟨f, rfl⟩ : ∃ g, f = g + 1 := ⟨f - 1, by omega⟩
  rw [parseKeyNode_succ]
  simp only [parseKeyNodeStep, h, h2]
  simp only [jsToString]
  rw [if_pos (by simp), if_neg (by simp), if_pos (by simp)]
  obtain ⟨f, rfl⟩ : ∃ g, f = g + 1 := ⟨f - 1, by omega⟩
  rw [readKeyItems_succ]
  simp only [readKeyItemsStep, h3]
  have e3 : pos + 2 + 1 = pos + 3 := by omega
  simp [isBracketToken, e3]

theorem expect_colon (toks : List Token) (pos : Nat)
    (h : peek toks pos = some ⟨.SYMBOL, .str ":"⟩) :
    expect toks pos .SYMBOL (some ":") = .ok (⟨.SYMBOL, .str ":"⟩, pos + 1) := by
  simp only [expect, h]
  rfl

theorem readValueItems_valueToks :
    ∀ (ps : List JSValue) (f : Nat) (pre post : List Token),
      ps ≠ [] → ps.length + 2 ≤ f →
      readValueItems (pre ++ (valueToks ps ++ (⟨.SYMBOL, .str "]"⟩ :: post))) f pre.length "]" =
        .ok (ps.map litNode, pre.length + 2 * ps.length) := by
  intro ps
  induction ps with
  | nil => intro f pre post h; exact absurd rfl h
  | cons p t ih =>
    intro f pre post _ hf
    obtain ⟨f, rfl⟩ : ∃ g, f = g + 1 := ⟨f - 1, by omega⟩
    rw [readValueItems_succ]
    cases t with
    | nil =>
      have htoks : pre ++ (valueToks [p] ++ (⟨.SYMBOL, .str "]"⟩ :: post)) =
          pre ++ (litToken p :: ⟨.SYMBOL, .str "]"⟩ :: post) := rfl
      rw [htoks]
      have hp0 : peek (pre ++ (litToken p :: ⟨.SYMBOL, .str "]"⟩ :: post)) pre.length =
          some (litToken p) := by
        have := peek_append pre (litToken p :: ⟨.SYMBOL, .str "]"⟩ :: post) 0
        simpa using this
      have hp1 : peek (pre ++ (litToken p :: ⟨.SYMBOL, .str "]"⟩ :: post)) (pre.length + 1) =
          some ⟨.SYMBOL, .str "]"⟩ := by
        have := peek_append pre (litToken p :: ⟨.SYMBOL, .str "]"⟩ :: post) 1
        simpa using this
      simp only [readValueItemsStep, hp0, litToken_not_bracket, Bool.false_eq_true, if_false]
      rw [parseValueNode_lit p _ f pre.length (by omega) hp0]
      simp only [hp1]
      rw [if_neg (by simp)]
      obtain ⟨f, rfl⟩ : ∃ g, f = g + 1 := ⟨f - 1, by omega⟩
      rw [readValueItems_succ]
      simp only [readValueItemsStep, hp1]
      rw [if_pos (by simp [isBracketToken])]
      rfl
    | cons q t' =>
      have htoks : pre ++ (valueToks (p :: q :: t') ++ (⟨.SYMBOL, .str "]"⟩ :: post)) =
          pre ++ (litToken p :: ⟨.SYMBOL, .str ","⟩ ::
            (valueToks (q :: t') ++ (⟨.SYMBOL, .str "]"⟩ :: post))) := by
        simp [valueToks]
      rw [htoks]
      have hp0 : peek (pre ++ (litToken p :: ⟨.SYMBOL, .str ","⟩ ::
          (valueToks (q :: t') ++ (⟨.SYMBOL, .str "]"⟩ :: post)))) pre.length =
          some (litToken p) := by
        have := peek_append pre (litToken p :: ⟨.SYMBOL, .str ","⟩ ::
          (valueToks (q :: t') ++ (⟨.SYMBOL, .str "]"⟩ :: post))) 0
        simpa using this
      have hp1 : peek (pre ++ (litToken p :: ⟨.SYMBOL, .str ","⟩ ::
          (valueToks (q :: t') ++ (⟨.SYMBOL, .str "]"⟩ :: post)))) (pre.length + 1) =
          some ⟨.SYMBOL, .str ","⟩ := by
        have := peek_append pre (litToken p :: ⟨.SYMBOL, .str ","⟩ ::
          (valueToks (q :: t') ++ (⟨.SYMBOL, .str "]"⟩ :: post))) 1
        simpa using this
      simp only [readValueItemsStep, hp0, litToken_not_bracket, Bool.false_eq_true, if_false]
      rw [parseValueNode_lit p _ f pre.length (by omega) hp0]
      simp only [hp1]
      rw [if_pos (by simp)]
      have hre : pre ++ (litToken p :: ⟨.SYMBOL, .str ","⟩ ::
          (valueToks (q :: t') ++ (⟨.SYMBOL, .str "]"⟩ :: post))) =
          (pre ++ [litToken p, ⟨.SYMBOL, .str ","⟩]) ++
            (valueToks (q :: t') ++ (⟨.SYMBOL, .str "]"⟩ :: post)) := by
        simp
      have hlen : pre.length + 1 + 1 = (pre ++ [litToken p, ⟨.SYMBOL, .str ","⟩]).length := by
        simp
      rw [hre, hlen, ih f (pre ++ [litToken p, ⟨.SYMBOL, .str ","⟩]) post (by simp)
        (by simp at hf ⊢; omega)]
      have : (pre ++ [litToken p, ⟨.SYMBOL, .str ","⟩]).length + 2 * (q :: t').length =
          pre.length + 2 * (p :: q :: t').length := by
        simp
        omega
      rw [this]
      rfl

theorem parseValueBlock_lit (p : JSValue) (hp : safeScalar p = true) (toks : List Token)
    (f pos : Nat) (hf : 1 ≤ f) (h : peek toks pos = some (litToken p)) :
    parseValueBlock toks f pos = .ok ([litNode p], pos + 1) := by
  simp only [parseValueBlock, h]
  cases p with
  | str s =>
    obtain ⟨_, hbr, hbk⟩ := safeScalar_str s hp
    rw [if_neg (by simp [litToken, hbr]), if_neg (by simp [litToken, hbk]),
      if_pos (by simp [litToken])]
    rw [parseValueNode_lit _ toks f pos hf h]
  | num q =>
    rw [if_neg (by simp [litToken]), if_neg (by simp [litToken]), if_pos (by simp [litToken])]
    rw [parseValueNode_lit _ toks f pos hf h]
  | bool b =>
    rw [if_neg (by simp [litToken]), if_neg (by simp [litToken]), if_pos (by simp [litToken])]
    rw [parseValueNode_lit _ toks f pos hf h]
  | nan => exact absurd hp (by decide)
  | null => exact absurd hp (by decide)

theorem parseValueBlock_listStart (toks : List Token) (f pos : Nat)
    (h : peek toks pos = some ⟨.SYMBOL, .str "["⟩) :
    parseValueBlock toks f pos =
      match readValueItems toks f (pos + 1) "]" with
      | .error e => .error e
      | .ok (children, p') => .ok ([.node .List (.str "") children], p') := by
  simp only [parseValueBlock, h]
  rw [if_neg (by simp), if_pos (by simp)]

theorem valueToks_length : ∀ (ps : List JSValue), ps ≠ [] →
    (valueToks ps).length = 2 * ps.length - 1 := by
  intro ps
  induction ps with
  | nil => intro h; exact absurd rfl h
  | cons p t ih =>
    intro _
    cases t with
    | nil => rfl
    | cons q t' =>
      simp only [valueToks, List.length_cons, ih (by simp)]
      omega

theorem build_eval (toks : List Token) (header : KeyNode) (body : List ValueNode)
    (p1 p2 p3 : Nat)
    (h1 : parseKeyNode toks (2 * toks.length + 2) 0 = .ok (header, p1))
    (h2 : expect toks p1 .SYMBOL (some ":") = .ok (⟨.SYMBOL, .str ":"⟩, p2))
    (h3 : parseValueBlock toks (2 * toks.length + 2) p2 = .ok (body, p3)) :
    build toks 0 = .ok (⟨header, body⟩, 0) := by
  simp only [build, h1, h2, h3]

theorem build_scalar (k : String) (p : JSValue) (hp : safeScalar p = true) :
    build [⟨.IDENT, .str k⟩, ⟨.SYMBOL, .str ":"⟩, litToken p] 0 =
      .ok (⟨.node .String k [], [litNode p]⟩, 0) := by
  apply build_eval _ _ _ (0 + 1) (0 + 1 + 1) (0 + 1 + 1 + 1)
  · exact parseKeyNode_ident_scalar _ _ _ _ (by simp) rfl rfl
  · exact expect_colon _ _ rfl
  · exact parseValueBlock_lit p hp _ _ _ (by simp) rfl

theorem build_list (k : String) (ps : List JSValue) (hne : ps ≠ []) :
    build (([⟨.IDENT, .str k⟩, ⟨.SYMBOL, .str "["⟩, ⟨.SYMBOL, .str "]"⟩,
        ⟨.SYMBOL, .str ":"⟩, ⟨.SYMBOL, .str "["⟩] : List Token) ++
        (valueToks ps ++ [⟨.SYMBOL, .str "]"⟩])) 0 =
      .ok (⟨.node .List k [], [.node .List (.str "") (ps.map litNode)]⟩, 0) := by
  have hvl := valueToks_length ps hne
  have hlen : ((([⟨.IDENT, .str k⟩, ⟨.SYMBOL, .str "["⟩, ⟨.SYMBOL, .str "]"⟩,
      ⟨.SYMBOL, .str ":"⟩, ⟨.SYMBOL, .str "["⟩] : List Token) ++
        (valueToks ps ++ ([⟨.SYMBOL, .str "]"⟩] : List Token)))).length =
      6 + (valueToks ps).length := by
    simp
    omega
  apply build_eval _ _ _ (0 + 3) (0 + 3 + 1) (0 + 3 + 1 + 1 + 2 * ps.length)
  · exact parseKeyNode_ident_list _ _ _ _ (by rw [hlen]; omega) rfl rfl rfl
  · exact expect_colon _ _ rfl
  · refine Eq.trans (parseValueBlock_listStart _ _ _ ?_) ?_
    · simp [peek]
    have h4 := readValueItems_valueToks ps
      (2 * ((([⟨.IDENT, .str k⟩, ⟨.SYMBOL, .str "["⟩, ⟨.SYMBOL, .str "]"⟩,
        ⟨.SYMBOL, .str ":"⟩, ⟨.SYMBOL, .str "["⟩] : List Token) ++
          (valueToks ps ++ ([⟨.SYMBOL, .str "]"⟩] : List Token)))).length + 2)
      ([⟨.IDENT, .str k⟩, ⟨.SYMBOL, .str "["⟩, ⟨.SYMBOL, .str "]"⟩,
        ⟨.SYMBOL, .str ":"⟩, ⟨.SYMBOL, .str "["⟩] : List Token) [] hne (by rw [hlen]; omega)
    rw [show (([⟨.IDENT, .str k⟩, ⟨.SYMBOL, .str "["⟩, ⟨.SYMBOL, .str "]"⟩,
      ⟨.SYMBOL, .str ":"⟩, ⟨.SYMBOL, .str "["⟩] : List Token)).length = 0 + 3 + 1 + 1 from rfl]
      at h4
    rw [h4]

/-! ## Reconciliation of the emitted documents -/

theorem litValue_safe (p : JSValue) (hp : safeScalar p = true) : litValue p = p := by
  cases p with
  | bool b => rw [safeScalar_bool b hp]; rfl
  | _ => rfl

theorem litKV_not_composite (p : JSValue) : isObjectList (litKV p) = false := by
  cases p <;> rfl

theorem valuesWalkList_litNodes : ∀ (ps : List JSValue) (lvl : Nat),
    valuesWalkList (ps.map litNode) lvl =
      ps.map (fun p => ⟨litKV p, litValue p, lvl⟩) := by
  intro ps lvl
  induction ps with
  | nil => rfl
  | cons p t ih =>
    simp only [List.map_cons, valuesWalkList]
    rw [ih]
    cases p <;> rfl

theorem set_getD_eq {α : Type} : ∀ (l : List α) (i : Nat) (d : α),
    i < l.length → l.set i (l.getD i d) = l := by
  intro l
  induction l with
  | nil => intro i d h; simp at h
  | cons a t ih =>
    intro i d h
    cases i with
    | zero => simp [List.getD]
    | succ j =>
      simp only [List.getD, List.get?_cons_succ, List.set_cons_succ]
      have := ih j d (by simpa using h)
      simp only [List.getD] at this
      rw [this]

theorem aget_set_self (arena : Arena) (i : Nat) (n : ANode) (h : i < arena.length) :
    aget (arena.set i n) i = n := by
  simp [aget, List.getD, List.get?_eq_getElem?, List.getElem?_set, h]

theorem consumeValues_arr : ∀ (ps : List JSValue) (keys : List KeyEntry) (st : BuildState)
    (l0 i : Nat) (stack : List (Nat × Nat)) (elems : List AEntry),
    st.valueStack = (l0, i) :: stack → l0 < 2 → i < st.arena.length →
    aget st.arena i = .aarr elems →
    consumeValues keys 1 (ps.map (fun p => ⟨litKV p, litValue p, 2⟩)) st =
      .ok ({ st with
              arena := st.arena.set i
                (.aarr (elems ++ ps.map (fun p => .leaf (litValue p)))) }, []) := by
  intro ps
  induction ps with
  | nil =>
    intro keys st l0 i stack elems hvs hl0 hi hag
    simp only [List.map_nil, consumeValues, List.append_nil]
    rw [← hag]
    rw [show aget st.arena i = st.arena.getD i (.aobj []) from rfl]
    rw [set_getD_eq st.arena i (.aobj []) hi]
  | cons p t ih =>
    intro keys st l0 i stack elems hvs hl0 hi hag
    simp only [List.map_cons, consumeValues]
    rw [if_pos (by decide)]
    rw [hvs]
    have hpw : popWhile (Err.valueStackUnderflow 2) 2 ((l0, i) :: stack) =
        .ok ((l0, i) :: stack) := by
      rw [popWhile]
      exact if_neg (by omega)
    simp only [hpw, hag, litKV_not_composite, Bool.false_eq_true, if_false]
    have := ih keys
      { st with
          arena := st.arena.set i (.aarr (elems ++ [.leaf (litValue p)])),
          valueStack := (l0, i) :: stack }
      l0 i stack (elems ++ [.leaf (litValue p)]) rfl hl0
      (by simpa using hi)
      (aget_set_self st.arena i _ hi)
    rw [this]
    rw [← hvs]
    simp [List.set_set]

theorem materialize_one (arena : Arena) :
    materialize arena 1 = materializeStep arena (materialize arena 0) := rfl

theorem toObject_scalar (k : String) (p : JSValue) :
    toObject ⟨.node .String k [], [litNode p]⟩ = .ok (.obj [(k, .prim (litValue p))]) := by
  cases p <;>
    simp [toObject, getKeysHierarchy, getValuesHierarchy, keysWalk, keysWalkList,
      valuesWalk, valuesWalkList, litNode, litValue, buildObject, keysLoop, consumeValues,
      popWhile, attach, aget, setProp, cursorGet, cursorSet, keyLevels, isObjectList,
      isObject, isList, isTypeNotEqual, List.getD, materialize_one, materializeStep]

theorem toObject_list (k : String) (ps : List JSValue) :
    toObject ⟨.node .List k [], [.node .List (.str "") (ps.map litNode)]⟩ =
      .ok (.obj [(k, .arr (ps.map (fun p => .prim (litValue p))))]) := by
  have hkeys : getKeysHierarchy (.node .List k []) = [⟨k, .List, 1⟩] := rfl
  have hflat : getValuesHierarchy [.node .List (.str "") (ps.map litNode)] =
      (⟨.List, .str "", 1⟩ : ValueEntry) :: ps.map (fun p => ⟨litKV p, litValue p, 2⟩) := by
    show valuesWalkList _ 1 = _
    simp only [valuesWalkList, valuesWalk, List.append_nil]
    rw [valuesWalkList_litNodes]
  rw [toObject, hkeys, hflat]
  simp only [buildObject]
  rw [if_neg (by simp)]
  have hc := consumeValues_arr ps [⟨k, .List, 1⟩]
    ⟨[.aobj [(k, .ref 2)], .aarr [], .aarr []], [(1, 1), (0, 0)], [(1, 2), (0, 0)], [(1, 0)]⟩
    1 2 [(0, 0)] [] rfl (by omega) (by simp) rfl
  simp at hc
  simp [keysLoop, consumeValues, popWhile, attach, aget, setProp, cursorGet, cursorSet,
    keyLevels, isObjectList, isObject, isList, isTypeNotEqual, List.getD, hc]
  rw [show (3 : Nat) = 2 + 1 from rfl, materialize_succ]
  simp only [materializeStep, aget, List.getD, List.get?]
  rw [show (2 : Nat) = 1 + 1 from rfl, materialize_succ]
  simp [materializeStep, aget, List.getD, List.map_map, Function.comp]

/-! ## The emitters on single-field objects of safe scalars -/

theorem jsLengthZero_single_nonnum (k : String) (v : JSObj)
    (h : ∀ q : ℚ, v ≠ .prim (.num q)) : jsLengthZero [(k, v)] = false := by
  by_cases hk : k = "length"
  · subst hk
    simp only [jsLengthZero, List.find?]
    simp only [decide_True, eq_self_iff_true]
    cases v with
    | prim p =>
      cases p with
      | num q => exact absurd rfl (h q)
      | _ => rfl
    | obj fields => rfl
    | arr elems => rfl
  · simp [jsLengthZero, List.find?, hk]

theorem jsLengthZero_single_prim (k : String) (p : JSValue)
    (h : ¬(k = "length" ∧ p = .num 0)) : jsLengthZero [(k, .prim p)] = false := by
  by_cases hk : k = "length"
  · subst hk
    simp only [jsLengthZero, List.find?]
    simp only [decide_True, eq_self_iff_true]
    cases p with
    | num q =>
      have hq : ¬(q = 0) := fun hq0 => h ⟨rfl, by rw [hq0]⟩
      simp [hq]
    | _ => rfl
  · simp [jsLengthZero, List.find?, hk]

theorem valuesSome_prim (p : JSValue) (ind : HRONIndent) (lvl : Int) :
    objectToHRONValuesSome (.prim p) ind lvl = .ok (litStr p) := by
  cases p <;> simp [objectToHRONValuesSome, litStr]

theorem litStr_ne_nil (p : JSValue) (hp : safeScalar p = true) : (litStr p).data ≠ [] := by
  cases p with
  | str s =>
    show ("'" ++ s ++ "'").data ≠ []
    simp
  | num q =>
    obtain ⟨h1, h2⟩ := safeScalar_num q hp
    show (jsNumToString q).data ≠ []
    rw [jsNumToString_natural q h1 h2]
    exact natDigits_ne_nil _
  | bool b =>
    rw [safeScalar_bool b hp]
    decide
  | nan => exact absurd hp (by decide)
  | null => exact absurd hp (by decide)

theorem litStr_strHead_false (p : JSValue) (hp : safeScalar p = true) (ch : Char)
    (hch : ch.toNat = 123 ∨ ch.toNat = 91) : strHead (litStr p) ch = false := by
  cases p with
  | str s =>
    have hdata : (litStr (.str s)).data = '\'' :: (s.data ++ ['\'']) := by
      show ("'" ++ s ++ "'").data = _
      simp
    simp only [strHead, hdata, decide_eq_false_iff_not]
    rintro rfl
    have : ('\'').toNat = 39 := rfl
    omega
  | num q =>
    obtain ⟨h1, h2⟩ := safeScalar_num q hp
    have hL : litStr (.num q) = String.mk (natDigits q.num.natAbs) :=
      jsNumToString_natural q h1 h2
    cases hd : natDigits q.num.natAbs with
    | nil => exact absurd hd (natDigits_ne_nil _)
    | cons c cs =>
      have hdata : (litStr (.num q)).data = c :: cs := by rw [hL, hd]
      simp only [strHead, hdata, decide_eq_false_iff_not]
      rintro rfl
      obtain ⟨d, hdlt, hc⟩ := natDigits_mem _ _ (by rw [hd]; exact List.mem_cons_self _ _)
      have := (digit_char_props d hdlt).1
      rw [← hc] at this
      omega
  | bool b =>
    rw [safeScalar_bool b hp]
    simp only [strHead]
    show decide ('f' = ch) = false
    simp only [decide_eq_false_iff_not]
    rintro rfl
    have : ('f').toNat = 102 := rfl
    omega
  | nan => exact absurd hp (by decide)
  | null => exact absurd hp (by decide)

theorem strHead_append (s t : String) (c : Char) (h : s.data ≠ []) :
    strHead (s ++ t) c = strHead s c := by
  cases hd : s.data with
  | nil => exact absurd hd h
  | cons x xs => simp [strHead, hd]

theorem strHead_of_data (s : String) (c d : Char) (l : List Char) (h : s.data = d :: l) :
    strHead s c = decide (d = c) := by
  simp [strHead, h]

theorem litList_strHead_false (ps : List JSValue) (hne : ps ≠ [])
    (hall : ∀ p ∈ ps, safeScalar p = true) (ch : Char)
    (hch : ch.toNat = 123 ∨ ch.toNat = 91) : strHead (litList ps) ch = false := by
  cases ps with
  | nil => exact absurd rfl hne
  | cons p t =>
    cases t with
    | nil => exact litStr_strHead_false p (hall p (by simp)) ch hch
    | cons q t' =>
      show strHead (litStr p ++ "," ++ litList (q :: t')) ch = false
      rw [strHead_append _ _ _ (by
        rw [String.data_append]
        intro hcon
        exact litStr_ne_nil p (hall p (by simp)) (List.append_eq_nil.mp hcon).1)]
      rw [strHead_append _ _ _ (litStr_ne_nil p (hall p (by simp)))]
      exact litStr_strHead_false p (hall p (by simp)) ch hch

theorem isStringObject_of_head (s : String) (h : strHead s (Char.ofNat 123) = false) :
    isStringObject s = false := by
  rw [isStringObject, h]
  rfl

theorem isStringList_of_head (s : String) (h : strHead s '[' = false) :
    isStringList s = false := by
  rw [isStringList, h]
  rfl

theorem valuesList_prims : ∀ (ps : List JSValue) (ind : HRONIndent) (lvl : Int), ps ≠ [] →
    objectToHRONValuesList (ps.map .prim) ind lvl = .ok (litList ps) := by
  intro ps
  induction ps with
  | nil => intro ind lvl h; exact absurd rfl h
  | cons p t ih =>
    intro ind lvl _
    cases t with
    | nil =>
      show objectToHRONValuesList [.prim p] ind lvl = _
      rw [show objectToHRONValuesList [.prim p] ind lvl =
        objectToHRONValuesSome (.prim p) ind lvl from by simp [objectToHRONValuesList]]
      rw [valuesSome_prim]
      rfl
    | cons q t' =>
      simp only [List.map_cons, objectToHRONValuesList, valuesSome_prim]
      rw [show (JSObj.prim q :: t'.map .prim) = (q :: t').map .prim from by simp]
      rw [ih ind lvl (by simp)]
      rfl

theorem emitKeys_scalar (k : String) (p : JSValue) :
    objectToHRONKeys (some (.obj [(k, .prim p)])) none = .ok ("\x7b" ++ k ++ "\x7d") := by
  simp [objectToHRONKeys, objectToHRONKeysSome, objectToHRONKeysFields]

theorem emitKeys_list (k : String) (ps : List JSValue) (hne : ps ≠ []) :
    objectToHRONKeys (some (.obj [(k, .arr (ps.map .prim))])) none =
      .ok ("\x7b" ++ (k ++ "[" ++ "" ++ "]") ++ "\x7d") := by
  cases ps with
  | nil => exact absurd rfl hne
  | cons p t =>
    simp [objectToHRONKeys, objectToHRONKeysSome, objectToHRONKeysFields]

theorem emitVals_scalar (k : String) (p : JSValue) (hp : safeScalar p = true)
    (hkp : ¬(k = "length" ∧ p = .num 0)) :
    objectToHRONValues (some (.obj [(k, .prim p)])) (.options indent0) 0 =
      .ok ("\x7b\n" ++ "" ++ litStr p ++ "\n" ++ "" ++ "\x7d") := by
  rw [objectToHRONValues]
  rw [show objectToHRONValuesSome (.obj [(k, .prim p)]) (.options indent0) 0 =
      (if jsLengthZero [(k, .prim p)] then .ok "\x7b\x7d"
       else
        match objectToHRONValuesFields [(k, .prim p)] (.options indent0) 1 with
        | .error _ => .error .invalidValues
        | .ok values =>
          if isStringObject values || indentLt1 (.options indent0) then
            .ok ("\x7b" ++ values ++ "\x7d")
          else
            match jsRepeatSpaces (indentTimes (.options indent0) 0),
                jsRepeatSpaces (indentTimes (.options indent0) (0 - 1)) with
            | .ok s1, .ok s2 => .ok ("\x7b\n" ++ s1 ++ values ++ "\n" ++ s2 ++ "\x7d")
            | _, _ => .error .invalidValues) from by
    simp [objectToHRONValuesSome]]
  rw [jsLengthZero_single_prim k p hkp]
  simp only [Bool.false_eq_true, if_false]
  rw [show objectToHRONValuesFields [(k, .prim p)] (.options indent0) 1 =
    objectToHRONValuesSome (.prim p) (.options indent0) 1 from by
    simp [objectToHRONValuesFields]]
  simp only [valuesSome_prim]
  simp only [isStringObject_of_head _ (litStr_strHead_false p hp _ (by left; rfl))]
  rfl

theorem emitVals_list (k : String) (ps : List JSValue) (hne : ps ≠ [])
    (hall : ∀ p ∈ ps, safeScalar p = true) :
    objectToHRONValues (some (.obj [(k, .arr (ps.map .prim))])) (.options indent0) 0 =
      .ok ("\x7b\n" ++ "" ++ ("[\n" ++ "" ++ litList ps ++ "\n" ++ "" ++ "]") ++ "\n" ++ "" ++
        "\x7d") := by
  have hinner : objectToHRONValuesSome (.arr (ps.map .prim)) (.options indent0) 1 =
      .ok ("[\n" ++ "" ++ litList ps ++ "\n" ++ "" ++ "]") := by
    rw [show objectToHRONValuesSome (.arr (ps.map .prim)) (.options indent0) 1 =
        (if (ps.map JSObj.prim).isEmpty then .ok "[]"
         else
          match objectToHRONValuesList (ps.map .prim) (.options indent0) (1 + 1) with
          | .error _ => .error .invalidValues
          | .ok items =>
            if isStringList items || indentLt1 (.options indent0) then .ok ("[" ++ items ++ "]")
            else
              match jsRepeatSpaces (indentTimes (.options indent0) 1),
                  jsRepeatSpaces (indentTimes (.options indent0) (1 - 1)) with
              | .ok s1, .ok s2 => .ok ("[\n" ++ s1 ++ items ++ "\n" ++ s2 ++ "]")
              | _, _ => .error .invalidValues) from by
      simp [objectToHRONValuesSome]]
    rw [if_neg (by cases ps with | nil => exact absurd rfl hne | cons p t => simp)]
    simp only [valuesList_prims ps _ _ hne]
    simp only [isStringList_of_head _ (litList_strHead_false ps hne hall '[' (by right; rfl))]
    rfl
  rw [objectToHRONValues]
  rw [show objectToHRONValuesSome (.obj [(k, .arr (ps.map .prim))]) (.options indent0) 0 =
      (if jsLengthZero [(k, .arr (ps.map .prim))] then .ok "\x7b\x7d"
       else
        match objectToHRONValuesFields [(k, .arr (ps.map .prim))] (.options indent0) 1 with
        | .error _ => .error .invalidValues
        | .ok values =>
          if isStringObject values || indentLt1 (.options indent0) then
            .ok ("\x7b" ++ values ++ "\x7d")
          else
            match jsRepeatSpaces (indentTimes (.options indent0) 0),
                jsRepeatSpaces (indentTimes (.options indent0) (0 - 1)) with
            | .ok s1, .ok s2 => .ok ("\x7b\n" ++ s1 ++ values ++ "\n" ++ s2 ++ "\x7d")
            | _, _ => .error .invalidValues) from by
    simp [objectToHRONValuesSome]]
  rw [jsLengthZero_single_nonnum k _ (fun q h => by simp at h)]
  simp only [Bool.false_eq_true, if_false]
  rw [show objectToHRONValuesFields [(k, .arr (ps.map .prim))] (.options indent0) 1 =
    objectToHRONValuesSome (.arr (ps.map .prim)) (.options indent0) 1 from by
    simp [objectToHRONValuesFields]]
  simp only [hinner]
  have hdata : ("[\n" ++ "" ++ litList ps ++ "\n" ++ "" ++ "]").data =
      '[' :: ('\n' :: ((litList ps).data ++ ['\n', ']'])) := by
    simp
  simp only [isStringObject_of_head ("[\n" ++ "" ++ litList ps ++ "\n" ++ "" ++ "]") (by
    rw [strHead_of_data _ _ _ _ hdata]
    decide)]
  rfl

theorem sliceBracket_wrap (s : String) (a b : Char) (l : List Char)
    (h : s.data = a :: (l ++ [b])) : sliceBracket s = String.mk l := by
  have hlen : s.length = l.length + 2 := by
    show s.data.length = _
    rw [h]
    simp
  rw [sliceBracket, jsSlice, hlen, h]
  have hstop : ((l.length + 2 : Nat) : Int) - 1 = ((l.length + 1 : Nat) : Int) := by
    push_cast
    ring
  rw [hstop]
  simp only []
  rw [if_neg (by omega), if_neg (by omega)]
  have h1 : (min ((l.length + 1 : Nat) : Int) ((l.length + 2 : Nat) : Int)).toNat =
      l.length + 1 := by omega
  have h2 : (min (1 : Int) ((l.length + 2 : Nat) : Int)).toNat = 1 := by omega
  rw [h1, h2]
  rw [List.take_succ_cons]
  congr 1
  show List.drop 1 (a :: (l ++ [b]).take l.length) = l
  rw [List.take_left' rfl]
  rfl

theorem encode_scalar (k : String) (p : JSValue) (hp : safeScalar p = true)
    (hkp : ¬(k = "length" ∧ p = .num 0)) :
    stringify (some (.obj [(k, .prim p)])) indent0 =
      .ok (sliceBracket ("\x7b" ++ k ++ "\x7d") ++ ": " ++
        sliceBracket ("\x7b\n" ++ "" ++ litStr p ++ "\n" ++ "" ++ "\x7d")) := by
  rw [stringify, toHRON, emitKeys_scalar]
  simp only [emitVals_scalar k p hp hkp]

theorem encode_list (k : String) (ps : List JSValue) (hne : ps ≠ [])
    (hall : ∀ p ∈ ps, safeScalar p = true) :
    stringify (some (.obj [(k, .arr (ps.map .prim))])) indent0 =
      .ok (sliceBracket ("\x7b" ++ (k ++ "[" ++ "" ++ "]") ++ "\x7d") ++ ": " ++
        sliceBracket ("\x7b\n" ++ "" ++ ("[\n" ++ "" ++ litList ps ++ "\n" ++ "" ++ "]") ++
          "\n" ++ "" ++ "\x7d")) := by
  rw [stringify, toHRON, emitKeys_list k ps hne]
  simp only [emitVals_list k ps hne hall]

/-! ## Newline-freeness of the emitters at numeric indent 0 (claim C8) -/

theorem indentLt1_zero : indentLt1 (.num 0) = true := by
  simp [indentLt1]

theorem noNLStr_not_mem {s : String} (h : noNLStr s = true) : '\n' ∉ s.data := by
  intro hmem
  have := List.all_eq_true.mp h '\n' hmem
  simp at this

theorem jsSlice_mem (s : String) (a b : Int) (c : Char)
    (h : c ∈ (jsSlice s a b).data) : c ∈ s.data := by
  rw [jsSlice] at h
  simp only [String.mk] at h
  exact List.mem_of_mem_take (List.mem_of_mem_drop h)

theorem sliceBracket_mem (s : String) (c : Char)
    (h : c ∈ (sliceBracket s).data) : c ∈ s.data :=
  jsSlice_mem _ _ _ _ h

theorem objectToHRONValuesList_no_nl_of :
    ∀ (xs : List JSObj),
      (∀ x ∈ xs, ∀ (lvl' : Int) (s' : String), noNewlines x = true →
        objectToHRONValuesSome x (.num 0) lvl' = .ok s' → '\n' ∉ s'.data) →
      ∀ (lvl : Int) (s : String), noNewlinesList xs = true →
        objectToHRONValuesList xs (.num 0) lvl = .ok s → '\n' ∉ s.data := by
  intro xs
  induction xs with
  | nil =>
    intro _ lvl s _ hok
    have heq : objectToHRONValuesList [] (.num 0) lvl = .ok "" := rfl
    rw [heq] at hok
    simp only [Except.ok.injEq] at hok
    subst hok
    decide
  | cons x ys ih =>
    intro hIH lvl s hnl hok
    rw [noNewlinesList] at hnl
    simp only [Bool.and_eq_true] at hnl
    cases ys with
    | nil =>
      have heq : objectToHRONValuesList [x] (.num 0) lvl =
          objectToHRONValuesSome x (.num 0) lvl := rfl
      rw [heq] at hok
      exact hIH x (by simp) lvl s hnl.1 hok
    | cons y rest =>
      have heq : objectToHRONValuesList (x :: y :: rest) (.num 0) lvl =
          (match objectToHRONValuesSome x (.num 0) lvl with
           | .error e => .error e
           | .ok s1 =>
             match objectToHRONValuesList (y :: rest) (.num 0) lvl with
             | .error e => .error e
             | .ok t => .ok (s1 ++ "," ++ t)) := rfl
      rw [heq] at hok
      cases h1 : objectToHRONValuesSome x (.num 0) lvl with
      | error e => simp [h1] at hok
      | ok s1 =>
        cases h2 : objectToHRONValuesList (y :: rest) (.num 0) lvl with
        | error e => simp [h1, h2] at hok
        | ok t =>
          simp only [h1, h2, Except.ok.injEq] at hok
          subst hok
          intro hmem
          simp only [String.data_append, List.mem_append] at hmem
          rcases hmem with (hmem | hmem) | hmem
          · exact hIH x (by simp) lvl s1 hnl.1 h1 hmem
          · simp at hmem
          · exact ih (fun z hz => hIH z (by simp [hz])) lvl t hnl.2 h2 hmem

theorem objectToHRONValuesFields_no_nl_of :
    ∀ (fs : List (String × JSObj)),
      (∀ p ∈ fs, ∀ (lvl' : Int) (s' : String), noNewlines p.2 = true →
        objectToHRONValuesSome p.2 (.num 0) lvl' = .ok s' → '\n' ∉ s'.data) →
      ∀ (lvl : Int) (s : String), noNewlinesFields fs = true →
        objectToHRONValuesFields fs (.num 0) lvl = .ok s → '\n' ∉ s.data := by
  intro fs
  induction fs with
  | nil =>
    intro _ lvl s _ hok
    have heq : objectToHRONValuesFields [] (.num 0) lvl = .ok "" := rfl
    rw [heq] at hok
    simp only [Except.ok.injEq] at hok
    subst hok
    decide
  | cons p qs ih =>
    intro hIH lvl s hnl hok
    obtain ⟨k, x⟩ := p
    rw [noNewlinesFields] at hnl
    simp only [Bool.and_eq_true] at hnl
    cases qs with
    | nil =>
      have heq : objectToHRONValuesFields [(k, x)] (.num 0) lvl =
          objectToHRONValuesSome x (.num 0) lvl := rfl
      rw [heq] at hok
      exact hIH (k, x) (by simp) lvl s hnl.1.2 hok
    | cons q rest =>
      have heq : objectToHRONValuesFields ((k, x) :: q :: rest) (.num 0) lvl =
          (match objectToHRONValuesSome x (.num 0) lvl with
           | .error e => .error e
           | .ok s1 =>
             match objectToHRONValuesFields (q :: rest) (.num 0) lvl with
             | .error e => .error e
             | .ok t => .ok (s1 ++ "," ++ t)) := rfl
      rw [heq] at hok
      cases h1 : objectToHRONValuesSome x (.num 0) lvl with
      | error e => simp [h1] at hok
      | ok s1 =>
        cases h2 : objectToHRONValuesFields (q :: rest) (.num 0) lvl with
        | error e => simp [h1, h2] at hok
        | ok t =>
          simp only [h1, h2, Except.ok.injEq] at hok
          subst hok
          intro hmem
          simp only [String.data_append, List.mem_append] at hmem
          rcases hmem with (hmem | hmem) | hmem
          · exact hIH (k, x) (by simp) lvl s1 hnl.1.2 h1 hmem
          · simp at hmem
          · exact ih (fun z hz => hIH z (by simp [hz])) lvl t hnl.2 h2 hmem

theorem objectToHRONValuesSome_no_nl :
    ∀ (v : JSObj), ∀ (lvl : Int) (s : String), noNewlines v = true →
      objectToHRONValuesSome v (.num 0) lvl = .ok s → '\n' ∉ s.data := by
  intro v
  induction v using JSObj.induct with
  | hobj fields ihf =>
    intro lvl s hnl hok
    rw [noNewlines] at hnl
    cases hz : jsLengthZero fields with
    | true =>
      have heq : objectToHRONValuesSome (.obj fields) (.num 0) lvl = .ok "\x7b\x7d" := by
        rw [objectToHRONValuesSome, hz]
        rfl
      rw [heq] at hok
      simp only [Except.ok.injEq] at hok
      subst hok
      decide
    | false =>
      rw [objectToHRONValuesSome, hz] at hok
      simp only [Bool.false_eq_true, if_false] at hok
      cases hv : objectToHRONValuesFields fields (.num 0) (lvl + 1) with
      | error e => simp [hv] at hok
      | ok values =>
        simp only [hv, indentLt1_zero, Bool.or_true, if_true, Except.ok.injEq] at hok
        subst hok
        intro hmem
        simp only [String.data_append, List.mem_append] at hmem
        rcases hmem with (hmem | hmem) | hmem
        · simp at hmem
        · exact objectToHRONValuesFields_no_nl_of fields
            (fun p hp lvl' s' h1 h2 => ihf p hp lvl' s' h1 h2) (lvl + 1) values hnl hv hmem
        · simp at hmem
  | harr elems ihe =>
    intro lvl s hnl hok
    rw [noNewlines] at hnl
    cases he : elems.isEmpty with
    | true =>
      have heq : objectToHRONValuesSome (.arr elems) (.num 0) lvl = .ok "[]" := by
        rw [objectToHRONValuesSome, he]
        rfl
      rw [heq] at hok
      simp only [Except.ok.injEq] at hok
      subst hok
      decide
    | false =>
      rw [objectToHRONValuesSome, he] at hok
      simp only [Bool.false_eq_true, if_false] at hok
      cases hv : objectToHRONValuesList elems (.num 0) (lvl + 1) with
      | error e => simp [hv] at hok
      | ok items =>
        simp only [hv, indentLt1_zero, Bool.or_true, if_true, Except.ok.injEq] at hok
        subst hok
        intro hmem
        simp only [String.data_append, List.mem_append] at hmem
        rcases hmem with (hmem | hmem) | hmem
        · simp at hmem
        · exact objectToHRONValuesList_no_nl_of elems
            (fun x hx lvl' s' h1 h2 => ihe x hx lvl' s' h1 h2) (lvl + 1) items hnl hv hmem
        · simp at hmem
  | hprim p =>
    intro lvl s hnl hok
    cases p with
    | str str =>
      rw [noNewlines] at hnl
      have heq : objectToHRONValuesSome (.prim (.str str)) (.num 0) lvl =
          .ok ("'" ++ str ++ "'") := rfl
      rw [heq] at hok
      simp only [Except.ok.injEq] at hok
      subst hok
      intro hmem
      simp only [String.data_append, List.mem_append] at hmem
      rcases hmem with (hmem | hmem) | hmem
      · simp at hmem
      · exact noNLStr_not_mem hnl hmem
      · simp at hmem
    | num q =>
      have heq : objectToHRONValuesSome (.prim (.num q)) (.num 0) lvl =
          .ok (jsToString (.num q)) := rfl
      rw [heq] at hok
      simp only [Except.ok.injEq] at hok
      subst hok
      intro hmem
      exact jsToString_ne_nl _ (by intro s h; cases h) _ hmem rfl
    | nan =>
      have heq : objectToHRONValuesSome (.prim .nan) (.num 0) lvl =
          .ok (jsToString .nan) := rfl
      rw [heq] at hok
      simp only [Except.ok.injEq] at hok
      subst hok
      intro hmem
      exact jsToString_ne_nl _ (by intro s h; cases h) _ hmem rfl
    | bool b =>
      have heq : objectToHRONValuesSome (.prim (.bool b)) (.num 0) lvl =
          .ok (jsToString (.bool b)) := rfl
      rw [heq] at hok
      simp only [Except.ok.injEq] at hok
      subst hok
      intro hmem
      exact jsToString_ne_nl _ (by intro s h; cases h) _ hmem rfl
    | null =>
      have heq : objectToHRONValuesSome (.prim .null) (.num 0) lvl =
          .ok (jsToString .null) := rfl
      rw [heq] at hok
      simp only [Except.ok.injEq] at hok
      subst hok
      intro hmem
      exact jsToString_ne_nl _ (by intro s h; cases h) _ hmem rfl

theorem objectToHRONKeysFields_no_nl_of :
    ∀ (fs : List (String × JSObj)),
      (∀ p ∈ fs, ∀ (name : Option String) (s' : String), noNewlines p.2 = true →
        (∀ nm, name = some nm → noNLStr nm = true) →
        objectToHRONKeysSome p.2 name = .ok s' → '\n' ∉ s'.data) →
      noNewlinesFields fs = true → ∀ (s : String),
        objectToHRONKeysFields fs = .ok s → '\n' ∉ s.data := by
  intro fs
  induction fs with
  | nil =>
    intro _ _ s hok
    have heq : objectToHRONKeysFields [] = .ok "" := rfl
    rw [heq] at hok
    simp only [Except.ok.injEq] at hok
    subst hok
    decide
  | cons p qs ih =>
    intro hIH hnl s hok
    obtain ⟨k, x⟩ := p
    rw [noNewlinesFields] at hnl
    simp only [Bool.and_eq_true] at hnl
    cases qs with
    | nil =>
      have heq : objectToHRONKeysFields [(k, x)] = objectToHRONKeysSome x (some k) := rfl
      rw [heq] at hok
      exact hIH (k, x) (by simp) (some k) s hnl.1.2
        (fun nm hnm => by cases hnm; exact hnl.1.1) hok
    | cons q rest =>
      have heq : objectToHRONKeysFields ((k, x) :: q :: rest) =
          (match objectToHRONKeysSome x (some k) with
           | .error e => .error e
           | .ok s1 =>
             match objectToHRONKeysFields (q :: rest) with
             | .error e => .error e
             | .ok t => .ok (s1 ++ "," ++ t)) := rfl
      rw [heq] at hok
      cases h1 : objectToHRONKeysSome x (some k) with
      | error e => simp [h1] at hok
      | ok s1 =>
        cases h2 : objectToHRONKeysFields (q :: rest) with
        | error e => simp [h1, h2] at hok
        | ok t =>
          simp only [h1, h2, Except.ok.injEq] at hok
          subst hok
          intro hmem
          simp only [String.data_append, List.mem_append] at hmem
          rcases hmem with (hmem | hmem) | hmem
          · exact hIH (k, x) (by simp) (some k) s1 hnl.1.2
              (fun nm hnm => by cases hnm; exact hnl.1.1) h1 hmem
          · simp at hmem
          · exact ih (fun z hz => hIH z (by simp [hz])) hnl.2 t h2 hmem

theorem objectToHRONKeysSome_arr_nil (name : Option String) :
    objectToHRONKeysSome (.arr []) name = .error (.invalidKeys name) := by
  rw [objectToHRONKeysSome.eq_def]

theorem objectToHRONKeysSome_arr_cons (x : JSObj) (rest : List JSObj)
    (name : Option String) :
    objectToHRONKeysSome (.arr (x :: rest)) name =
      (match objectToHRONKeysSome x none with
       | .error _ => .error (.invalidKeys name)
       | .ok hronKeys =>
         .ok (match name with
              | some n => n ++ "[" ++ hronKeys ++ "]"
              | none => "[" ++ hronKeys ++ "]")) := by
  rw [objectToHRONKeysSome.eq_def]

theorem objectToHRONKeysSome_no_nl :
    ∀ (v : JSObj), ∀ (name : Option String) (s : String), noNewlines v = true →
      (∀ nm, name = some nm → noNLStr nm = true) →
      objectToHRONKeysSome v name = .ok s → '\n' ∉ s.data := by
  intro v
  induction v using JSObj.induct with
  | hobj fields ihf =>
    intro name s hnl hname hok
    rw [noNewlines] at hnl
    rw [objectToHRONKeysSome] at hok
    cases hv : objectToHRONKeysFields fields with
    | error e => simp [hv] at hok
    | ok keys =>
      simp only [hv, Except.ok.injEq] at hok
      have hkeys : '\n' ∉ keys.data :=
        objectToHRONKeysFields_no_nl_of fields
          (fun p hp nm s' h1 h2 h3 => ihf p hp nm s' h1 h2 h3) hnl keys hv
      cases name with
      | none =>
        simp only at hok
        subst hok
        intro hmem
        simp only [String.data_append, List.mem_append] at hmem
        rcases hmem with (hmem | hmem) | hmem
        · simp at hmem
        · exact hkeys hmem
        · simp at hmem
      | some n =>
        simp only at hok
        subst hok
        intro hmem
        simp only [String.data_append, List.mem_append] at hmem
        rcases hmem with ((hmem | hmem) | hmem) | hmem
        · exact noNLStr_not_mem (hname n rfl) hmem
        · simp at hmem
        · exact hkeys hmem
        · simp at hmem
  | harr elems ihe =>
    intro name s hnl hname hok
    rw [noNewlines] at hnl
    cases elems with
    | nil =>
      rw [objectToHRONKeysSome_arr_nil] at hok
      cases hok
    | cons x rest =>
      rw [objectToHRONKeysSome_arr_cons] at hok
      cases hv : objectToHRONKeysSome x none with
      | error e => simp [hv] at hok
      | ok hronKeys =>
        simp only [hv, Except.ok.injEq] at hok
        have hinner : '\n' ∉ hronKeys.data :=
          ihe x (by simp) none hronKeys (noNewlinesList_mem _ hnl x (by simp))
            (fun nm hnm => by cases hnm) hv
        cases name with
        | none =>
          simp only at hok
          subst hok
          intro hmem
          simp only [String.data_append, List.mem_append] at hmem
          rcases hmem with (hmem | hmem) | hmem
          · simp at hmem
          · exact hinner hmem
          · simp at hmem
        | some n =>
          simp only at hok
          subst hok
          intro hmem
          simp only [String.data_append, List.mem_append] at hmem
          rcases hmem with ((hmem | hmem) | hmem) | hmem
          · exact noNLStr_not_mem (hname n rfl) hmem
          · simp at hmem
          · exact hinner hmem
          · simp at hmem
  | hprim p =>
    intro name s hnl hname hok
    have heq : objectToHRONKeysSome (.prim p) name = .ok (name.getD "") := rfl
    rw [heq] at hok
    simp only [Except.ok.injEq] at hok
    subst hok
    cases name with
    | none => decide
    | some n => exact noNLStr_not_mem (hname n rfl)

/-- C8 (amended): as shipped, `stringify` with `{indent: 0}` emits
newlines, because the whole options object reaches the renderer's numeric
`indent` parameter (`stringify({a:1})` yields `"a: \n1\n"`); when the
renderer `toHRON` is invoked with the *number* 0, the output contains no
newline character for every value whose strings and field names contain
none. -/
theorem toHRON_numeric_indent0_single_line :
    stringify (some (.obj [("a", .prim (.num 1))])) indent0 = .ok "a: \n1\n" ∧
    ∀ (v : JSObj) (s : String), noNewlines v = true →
      toHRON (some v) (.num 0) = .ok s → '\n' ∉ s.data := by
  refine ⟨rfl, ?_⟩
  intro v s hnl hok
  rw [toHRON] at hok
  cases hk : objectToHRONKeys (some v) none with
  | error e => simp [hk] at hok
  | ok keys =>
    cases hv : objectToHRONValues (some v) (.num 0) 0 with
    | error e => simp [hk, hv] at hok
    | ok values =>
      simp only [hk, hv, Except.ok.injEq] at hok
      subst hok
      have hkeys : '\n' ∉ keys.data :=
        objectToHRONKeysSome_no_nl v none keys hnl (fun nm hnm => by cases hnm) hk
      have hvals : '\n' ∉ values.data :=
        objectToHRONValuesSome_no_nl v 0 values hnl hv
      intro hmem
      simp only [String.data_append, List.mem_append] at hmem
      rcases hmem with (hmem | hmem) | hmem
      · exact hkeys (sliceBracket_mem _ _ hmem)
      · simp at hmem
      · exact hvals (sliceBracket_mem _ _ hmem)

/-- C8 witness: the amended theorem applied at `{a: 1}`, whose rendering
with the numeric indent 0 is `"a: 1"`. -/
theorem toHRON_numeric_indent0_single_line_witness :
    noNewlines (.obj [("a", .prim (.num 1))]) = true ∧ '\n' ∉ ("a: 1").data :=
  ⟨by decide,
   toHRON_numeric_indent0_single_line.2 (.obj [("a", .prim (.num 1))]) "a: 1"
     (by decide) rfl⟩

/-! ## Claim C9: the value stack never underflows

Invariant: the bottom of the value stack is the level-0 sentinel `(0, 0)`;
popping requires the top's level to be at least the incoming entry's
level, and every flattened data entry has level ≥ 1, so the sentinel is
never popped and a parent is always available. -/

theorem getLast?_cons_of_some {α : Type} {ys : List α} {a : α} (x : α)
    (h : ys.getLast? = some a) : (x :: ys).getLast? = some a := by
  cases ys with
  | nil => simp at h
  | cons y ys' => rw [List.getLast?_cons_cons]; exact h

theorem popWhile_cons (err : Err) (lvl l i : Nat) (rest : List (Nat × Nat)) :
    popWhile err lvl ((l, i) :: rest) =
      if lvl ≤ l then popWhile err lvl rest else .ok ((l, i) :: rest) := rfl

theorem popWhile_nil (err : Err) (lvl : Nat) :
    popWhile err lvl [] = .error err := rfl

theorem popWhile_error (err : Err) (lvl : Nat) :
    ∀ (s : List (Nat × Nat)) (e : Err), popWhile err lvl s = .error e → e = err := by
  intro s
  induction s with
  | nil =>
    intro e h
    rw [popWhile_nil] at h
    cases h
    rfl
  | cons p rest ih =>
    intro e h
    obtain ⟨a, b⟩ := p
    rw [popWhile_cons] at h
    by_cases hc : lvl ≤ a
    · rw [if_pos hc] at h; exact ih e h
    · rw [if_neg hc] at h; cases h

theorem popWhile_getLast (err : Err) (lvl : Nat) (hlvl : 1 ≤ lvl) :
    ∀ (s : List (Nat × Nat)) (i : Nat), s.getLast? = some (0, i) →
      ∃ s' j, popWhile err lvl s = .ok s' ∧ s'.getLast? = some (0, j) := by
  intro s
  induction s with
  | nil => intro i h; simp at h
  | cons p rest ih =>
    intro i h
    obtain ⟨l, idx⟩ := p
    by_cases hc : lvl ≤ l
    · cases rest with
      | nil =>
        simp [List.getLast?] at h
        omega
      | cons q rest' =>
        rw [List.getLast?_cons_cons] at h
        obtain ⟨s', j, hok, hl⟩ := ih i h
        refine ⟨s', j, ?_, hl⟩
        rw [popWhile_cons, if_pos hc]
        exact hok
    · refine ⟨(l, idx) :: rest, i, ?_, h⟩
      rw [popWhile_cons, if_neg hc]

theorem consumeValues_inv (keys : List KeyEntry) (keyLevel : Nat) :
    ∀ (vs : List ValueEntry) (st : BuildState),
      (∀ e ∈ vs, 1 ≤ e.level) →
      (∃ i, st.valueStack.getLast? = some (0, i)) →
      (∀ l, consumeValues keys keyLevel vs st ≠ .error (.noParent l) ∧
            consumeValues keys keyLevel vs st ≠ .error (.valueStackUnderflow l)) ∧
      (∀ st' rest, consumeValues keys keyLevel vs st = .ok (st', rest) →
         (∃ i, st'.valueStack.getLast? = some (0, i)) ∧ ∀ e ∈ rest, 1 ≤ e.level) := by
  intro vs
  induction vs with
  | nil =>
    intro st _ hinv
    refine ⟨fun l => by simp [consumeValues], fun st' rest h => ?_⟩
    simp only [consumeValues, Except.ok.injEq, Prod.mk.injEq] at h
    obtain ⟨h1, h2⟩ := h
    exact ⟨h1 ▸ hinv, by rw [← h2]; simp⟩
  | cons v rest ih =>
    intro st hlv hinv
    have hv : 1 ≤ v.level := hlv v (by simp)
    have hrest : ∀ e ∈ rest, 1 ≤ e.level := fun e he => hlv e (by simp [he])
    obtain ⟨i, hlast⟩ := hinv
    by_cases hle : v.level ≤ keyLevel + 1
    · obtain ⟨s', j, hok, hl'⟩ :=
        popWhile_getLast (.valueStackUnderflow v.level) v.level hv st.valueStack i hlast
      cases s' with
      | nil => simp at hl'
      | cons top s'' =>
        obtain ⟨l0, pid⟩ := top
        rw [consumeValues]
        simp only [hle, if_true, hok]
        cases haget : aget st.arena pid with
        | aarr elems =>
          by_cases hcomp : (isObjectList v.type : Bool)
          · simp only [haget, hcomp, if_true]
            exact ih _ hrest ⟨j, getLast?_cons_of_some _ hl'⟩
          · simp only [haget, hcomp, Bool.false_eq_true, if_false]
            exact ih _ hrest ⟨j, hl'⟩
        | aobj fields =>
          simp only [haget]
          cases hkey : (keyLevels keys v.level)[cursorGet st.keyCursor v.level]? with
          | none =>
            simp only [hkey]
            refine ⟨fun l => by simp, fun st' r h => by simp at h⟩
          | some keyEntry =>
            simp only [hkey]
            by_cases hmis : (isTypeNotEqual keyEntry.type v.type .List
                ∨ isTypeNotEqual keyEntry.type v.type .Object : Prop)
            · simp only [if_pos hmis]
              refine ⟨fun l => by simp, fun st' r h => by simp at h⟩
            · simp only [if_neg hmis]
              by_cases hcomp : (isObjectList v.type : Bool)
              · simp only [hcomp, if_true]
                exact ih _ hrest ⟨j, getLast?_cons_of_some _ hl'⟩
              · simp only [hcomp, Bool.false_eq_true, if_false]
                exact ih _ hrest ⟨j, hl'⟩
    · rw [consumeValues]
      simp only [hle, if_false]
      refine ⟨fun l => by simp, fun st' r h => ?_⟩
      simp only [Except.ok.injEq, Prod.mk.injEq] at h
      obtain ⟨h1, h2⟩ := h
      refine ⟨h1 ▸ ⟨i, hlast⟩, fun e he => hlv e ?_⟩
      rw [← h2] at he
      exact he

theorem keysLoop_inv (keys : List KeyEntry) :
    ∀ (ks : List KeyEntry) (vs : List ValueEntry) (st : BuildState),
      (∀ e ∈ vs, 1 ≤ e.level) →
      (∃ i, st.valueStack.getLast? = some (0, i)) →
      ∀ l, keysLoop keys ks vs st ≠ .error (.noParent l) ∧
           keysLoop keys ks vs st ≠ .error (.valueStackUnderflow l) := by
  intro ks
  induction ks with
  | nil => intro vs st _ _ l; exact ⟨by simp [keysLoop], by simp [keysLoop]⟩
  | cons key restKeys ih =>
    intro vs st hlv hinv l
    rw [keysLoop]
    cases hpop : popWhile .keyStackUnderflow key.level st.keyStack with
    | error e =>
      have : e = .keyStackUnderflow := popWhile_error _ _ _ _ hpop
      subst this
      exact ⟨by simp, by simp⟩
    | ok stack =>
      cases stack with
      | nil => exact ⟨by simp, by simp⟩
      | cons top srest =>
        obtain ⟨tl, parentId⟩ := top
        obtain ⟨i0, hlast0⟩ := hinv
        by_cases hcomp : (isObjectList key.type : Bool)
        · simp only [hcomp, if_true]
          obtain ⟨hcv, hcvok⟩ := consumeValues_inv keys key.level vs
            { st with
              arena := attach st.arena parentId key.name
                (.ref st.arena.length) ++
                  [if isObject key.type then ANode.aobj [] else ANode.aarr []],
              keyStack := (key.level, st.arena.length) :: (tl, parentId) :: srest }
            hlv ⟨i0, hlast0⟩
          cases hc : consumeValues keys key.level vs
              { st with
                arena := attach st.arena parentId key.name
                  (.ref st.arena.length) ++
                    [if isObject key.type then ANode.aobj [] else ANode.aarr []],
                keyStack := (key.level, st.arena.length) :: (tl, parentId) :: srest } with
          | error e =>
            have h1 := (hcv l).1
            have h2 := (hcv l).2
            rw [hc] at h1 h2
            refine ⟨fun h => ?_, fun h => ?_⟩
            · cases h; exact h1 rfl
            · cases h; exact h2 rfl
          | ok p =>
            obtain ⟨st'', values'⟩ := p
            obtain ⟨hinv'', hlv''⟩ := hcvok st'' values' hc
            exact ih values' st'' hlv'' hinv'' l
        · simp only [hcomp, Bool.false_eq_true, if_false]
          obtain ⟨hcv, hcvok⟩ := consumeValues_inv keys key.level vs
            { st with
              arena := attach st.arena parentId key.name (.leaf .null),
              keyStack := (tl, parentId) :: srest } hlv ⟨i0, hlast0⟩
          cases hc : consumeValues keys key.level vs
              { st with
                arena := attach st.arena parentId key.name (.leaf .null),
                keyStack := (tl, parentId) :: srest } with
          | error e =>
            have h1 := (hcv l).1
            have h2 := (hcv l).2
            rw [hc] at h1 h2
            refine ⟨fun h => ?_, fun h => ?_⟩
            · cases h; exact h1 rfl
            · cases h; exact h2 rfl
          | ok p =>
            obtain ⟨st'', values'⟩ := p
            obtain ⟨hinv'', hlv''⟩ := hcvok st'' values' hc
            exact ih values' st'' hlv'' hinv'' l

/-- C9: with every flattened data entry at level ≥ 1 (the flattener's
initial level is 1 and levels only grow), the value-stack-underflow crash
and the "no parent available" error branch of `buildObject` are
unreachable: the level-0 sentinel is never popped, because popping
requires the stack top's level to be at least the incoming entry's
level. -/
theorem value_stack_never_underflows :
    ∀ (keys : List KeyEntry) (values : List ValueEntry),
      (∀ e ∈ values, 1 ≤ e.level) →
      ∀ l, buildObject keys values ≠ .error (.noParent l) ∧
           buildObject keys values ≠ .error (.valueStackUnderflow l) := by
  intro keys values hlv l
  rw [buildObject]
  by_cases hk : keys.isEmpty
  · simp [hk]
  · simp only [hk, Bool.false_eq_true, if_false]
    have hloop := keysLoop_inv keys keys values ⟨[.aobj []], [(0, 0)], [(0, 0)], []⟩
      hlv ⟨0, rfl⟩ l
    cases hc : keysLoop keys keys values ⟨[.aobj []], [(0, 0)], [(0, 0)], []⟩ with
    | error e =>
      obtain ⟨h1, h2⟩ := hloop
      rw [hc] at h1 h2
      refine ⟨fun h => ?_, fun h => ?_⟩
      · cases h; exact h1 rfl
      · cases h; exact h2 rfl
    | ok p =>
      obtain ⟨st, leftover⟩ := p
      by_cases hrem : leftover.length ≠ 0
      · simp [hrem]
      · simp [hrem]

/-- C9 witness: the theorem applied at a concrete schema/data pair. -/
theorem value_stack_never_underflows_witness :
    (∀ e ∈ [(⟨.Number, .num 1, 1⟩ : ValueEntry)], 1 ≤ e.level) ∧
    ∀ l, buildObject [⟨"a", .String, 1⟩] [⟨.Number, .num 1, 1⟩] ≠ .error (.noParent l) ∧
         buildObject [⟨"a", .String, 1⟩] [⟨.Number, .num 1, 1⟩] ≠
           .error (.valueStackUnderflow l) :=
  ⟨by decide, value_stack_never_underflows [⟨"a", .String, 1⟩] [⟨.Number, .num 1, 1⟩]
    (by decide)⟩

/-- C1 (counterexample): the unrestricted round trip fails.  A top-level
scalar `5` encodes to `": "` whose parse fails in the header; `{k: true}`
decodes back as `{k: false}` (the builder compares the boolean token value
with the string `"true"`); `{a: 1, b: 2}` encodes to `a,b: 1,2`, whose
header parse stops at the comma. -/
theorem roundtrip_counterexamples :
    roundTrip (.prim (.num 5)) indent0 = .error (.unexpectedKeyToken .SYMBOL (.str ":") 0) ∧
    roundTrip (.obj [("k", .prim (.bool true))]) indent0 =
      .ok (.obj [("k", .prim (.bool false))]) ∧
    (JSObj.obj [("k", .prim (.bool false))] ≠ .obj [("k", .prim (.bool true))]) ∧
    roundTrip (.obj [("a", .prim (.num 1)), ("b", .prim (.num 2))]) indent0 =
      .error (.unexpectedTokenValue ":" (.str ",") 1) :=
  ⟨rfl, rfl, by simp, rfl⟩

/-- C1 (amended): the round trip `parse (stringify v {indent: 0, colorize: false}) = v`
does hold on single-field objects whose field name survives the lexer as one
identifier and whose content is a surviving scalar or a nonempty list of
surviving scalars: nonnegative integers below `2 ^ 53` (where `String(n)` is
the exact positional decimal the lexer reads back; from `1e21` JS prints
exponential notation such as `1e+21`, which the lexer rejects at the `+`),
quote-free strings that are not a lone opening bracket, and the boolean
`false` — provided the field is not a `length: 0` pair, which the value
emitter would collapse to `\x7b\x7d`. -/
theorem roundtrip_safe_class :
    (∀ (k : String) (p : JSValue), validIdentifier k = true → safeScalar p = true →
      ¬(k = "length" ∧ p = .num 0) →
      roundTrip (.obj [(k, .prim p)]) indent0 = .ok (.obj [(k, .prim p)])) ∧
    (∀ (k : String) (ps : List JSValue), validIdentifier k = true → ps ≠ [] →
      (∀ p ∈ ps, safeScalar p = true) →
      roundTrip (.obj [(k, .arr (ps.map .prim))]) indent0 =
        .ok (.obj [(k, .arr (ps.map .prim))])) := by
  constructor
  · intro k p hk hp hkp
    rw [roundTrip]
    simp only [encode_scalar k p hp hkp]
    rw [sliceBracket_wrap ("\x7b" ++ k ++ "\x7d") (Char.ofNat 123) (Char.ofNat 125) k.data
      (by simp)]
    rw [sliceBracket_wrap ("\x7b\n" ++ "" ++ litStr p ++ "\n" ++ "" ++ "\x7d")
      (Char.ofNat 123) (Char.ofNat 125) ('\n' :: ((litStr p).data ++ ['\n'])) (by simp)]
    rw [parse, parseCall]
    simp only [scalarDoc_toks k p hk hp
      (String.mk k.data ++ ": " ++ String.mk ('\n' :: ((litStr p).data ++ ['\n']))) (by simp)]
    simp only [build_scalar k p hp]
    simp only [toObject_scalar k p]
    rw [litValue_safe p hp]
  · intro k ps hk hne hall
    rw [roundTrip]
    simp only [encode_list k ps hne hall]
    rw [sliceBracket_wrap ("\x7b" ++ (k ++ "[" ++ "" ++ "]") ++ "\x7d")
      (Char.ofNat 123) (Char.ofNat 125) (k.data ++ ['[', ']']) (by simp)]
    rw [sliceBracket_wrap ("\x7b\n" ++ "" ++ ("[\n" ++ "" ++ litList ps ++ "\n" ++ "" ++ "]")
        ++ "\n" ++ "" ++ "\x7d") (Char.ofNat 123) (Char.ofNat 125)
      ('\n' :: ('[' :: '\n' :: ((litList ps).data ++ ('\n' :: ']' :: ['\n'])))) (by simp)]
    rw [parse, parseCall]
    simp only [listDoc_toks k ps hk hne hall
      (String.mk (k.data ++ ['[', ']']) ++ ": " ++
        String.mk ('\n' :: ('[' :: '\n' :: ((litList ps).data ++ ('\n' :: ']' :: ['\n'])))))
      (by simp)]
    simp only [build_list k ps hne]
    simp only [toObject_list k ps]
    have : ps.map (fun p => JSObj.prim (litValue p)) = ps.map .prim :=
      List.map_congr_left (fun p hp => by rw [litValue_safe p (hall p hp)])
    rw [this]

/-- C1 witness: the amended round trip applied at `\x7ba: 2\x7d` and at
`\x7ba: ['x', false]\x7d`. -/
theorem roundtrip_safe_class_witness :
    roundTrip (.obj [("a", .prim (.num 2))]) indent0 = .ok (.obj [("a", .prim (.num 2))]) ∧
    roundTrip (.obj [("a", .arr ([JSValue.str "x", JSValue.bool false].map JSObj.prim))])
        indent0 =
      .ok (.obj [("a", .arr ([JSValue.str "x", JSValue.bool false].map JSObj.prim))]) :=
  ⟨roundtrip_safe_class.1 "a" (.num 2) (by decide) (by decide) (by decide),
   roundtrip_safe_class.2 "a" [.str "x", .bool false] (by decide) (by simp) (by decide)⟩

end HRON
